import Mathlib

/-!
Verification development for the PubTator annotation editor.

The JavaScript sources are embedded shallowly:
* strings are `List Char` (`Str`);
* JS numbers appearing in this code are either integers or `NaN`, so they
  are embedded as `Option Int` (`JSNum`, `none` = `NaN`);
* the format codec (`parsePubtator` / `generateExportContent`), the
  annotation store (`addAnnotation` in the source, here `addAnnot`), and
  the segmentation engine (`processTextSegments` and its helpers) are
  translated function by function;
* fallible JS code (null dereferences) is embedded with `Except Unit`;
* the built-in JS regex engine is not part of the repository; literal
  case-insensitive scanning (the only use the potential-match pass makes
  of it, via `escapeRegExp`) is implemented concretely, and the
  user-supplied search regex of `createRegexMatches` is abstracted as an
  explicit engine parameter returning the match list a terminating
  `exec` loop would produce (`none` = the pattern failed to compile).

Identifiers ending in reserved words are renamed minimally
(`Annot` for the annotation record, `addAnnot` for `addAnnotation`);
all other names follow the source.
-/

/-- Strings are embedded as lists of characters. -/
abbrev Str := List Char

/-- JS numbers occurring in this program: an integer or `NaN` (`none`). -/
abbrev JSNum := Option Int

/-- JS `<` on numbers: any comparison with `NaN` is false. -/
def jsLt (a b : JSNum) : Bool :=
  match a, b with
  | some x, some y => x < y
  | _, _ => false

/-- JS `>` on numbers: any comparison with `NaN` is false. -/
def jsGt (a b : JSNum) : Bool :=
  match a, b with
  | some x, some y => y < x
  | _, _ => false

/-- Subtraction comparator as used by `Array.prototype.sort` callbacks;
per ECMA-262 `SortCompare`, a `NaN` comparator result is treated as `+0`. -/
def jsNumCmp (a b : JSNum) : Int :=
  match a, b with
  | some x, some y => x - y
  | _, _ => 0

/-- Whitespace in the sense of JS `String.prototype.trim` (ASCII part). -/
def jsIsWhiteChar (c : Char) : Bool :=
  c = ' ' || c = '\t' || c = '\n' || c = '\r' || c = '\x0b' || c = '\x0c'

/-- Leading-whitespace removal (JS `trimStart`). -/
def jsTrimStart (l : Str) : Str := l.dropWhile jsIsWhiteChar

/-- Trailing-whitespace removal (JS `trimEnd`). -/
def jsTrimEnd (l : Str) : Str := (l.reverse.dropWhile jsIsWhiteChar).reverse

/-- JS `String.prototype.trim`. -/
def jsTrim (l : Str) : Str := jsTrimEnd (jsTrimStart l)

/-- JS `String.prototype.split` with a single-character separator. -/
def splitOnChar (c : Char) : Str → List Str
  | [] => [[]]
  | x :: xs =>
    match splitOnChar c xs with
    | [] => [[]]
    | h :: t => if x = c then [] :: h :: t else (x :: h) :: t

/-- Boolean string-prefix test (used to specify substring containment). -/
def startsWithStr : Str → Str → Bool
  | [], _ => true
  | _ :: _, [] => false
  | p :: ps, c :: cs => p = c && startsWithStr ps cs

/-- JS `String.prototype.includes`: `substrContains pat s` holds iff `pat`
occurs contiguously inside `s`. -/
def substrContains (pat : Str) : Str → Bool
  | [] => startsWithStr pat []
  | c :: cs => startsWithStr pat (c :: cs) || substrContains pat cs

/-- JS `Set.prototype.add` on an insertion-ordered deduplicated list. -/
def setAdd (l : List Str) (x : Str) : List Str :=
  if x ∈ l then l else l ++ [x]

/-- Decimal digit character for a digit value. -/
def digitChar (d : Nat) : Char := Char.ofNat (48 + d)

/-- Numeric value of a decimal digit character. -/
def digitVal (c : Char) : Nat := c.toNat - 48

/-- Test for an ASCII decimal digit (JS regex `\d`). -/
def isDigitChar (c : Char) : Bool := '0' ≤ c && c ≤ '9'

/-- Test for an ASCII hexadecimal digit. -/
def isHexDigitChar (c : Char) : Bool :=
  isDigitChar c || ('a' ≤ c && c ≤ 'f') || ('A' ≤ c && c ≤ 'F')

/-- Numeric value of a hexadecimal digit character. -/
def hexVal (c : Char) : Nat :=
  if 'a' ≤ c && c ≤ 'f' then c.toNat - 87
  else if 'A' ≤ c && c ≤ 'F' then c.toNat - 55
  else digitVal c

/-- Decimal rendering of a natural number (JS number-to-string for
nonnegative integers). -/
def natToStr (n : Nat) : Str :=
  if _h : n < 10 then [digitChar n]
  else natToStr (n / 10) ++ [digitChar (n % 10)]
decreasing_by exact Nat.div_lt_self (by omega) (by omega)

/-- JS template-literal rendering of an integer. -/
def intToStr (k : Int) : Str :=
  if k < 0 then '-' :: natToStr (-k).toNat else natToStr k.toNat

/-- JS template-literal rendering of a number (`NaN` prints as "NaN"). -/
def numToStr (x : JSNum) : Str :=
  match x with
  | some k => intToStr k
  | none => 'N' :: 'a' :: 'N' :: []

/-- Value of a digit string under the given radix, accumulated left to right. -/
def digitsVal (radix : Nat) (dval : Char → Nat) (ds : Str) : Nat :=
  ds.foldl (fun acc c => acc * radix + dval c) 0

/-- Longest-prefix digit parse used by `parseInt`: value of the leading
digit run, `none` when there is no leading digit. -/
def parseRun (dig : Char → Bool) (radix : Nat) (dval : Char → Nat) (s : Str) : Option Nat :=
  let ds := s.takeWhile dig
  if ds.isEmpty then none else some (digitsVal radix dval ds)

/-- Unsigned part of JS `parseInt` with an undefined radix: a `0x`/`0X`
prefix selects base 16, otherwise base 10. -/
def jsParseIntCore (s : Str) : Option Nat :=
  if startsWithStr ('0' :: 'x' :: []) s then parseRun isHexDigitChar 16 hexVal (s.drop 2)
  else if startsWithStr ('0' :: 'X' :: []) s then parseRun isHexDigitChar 16 hexVal (s.drop 2)
  else parseRun isDigitChar 10 digitVal s

/-- JS `parseInt(string)` (radix argument omitted): strips leading
whitespace, consumes an optional sign, then the longest digit run;
`none` models a `NaN` result. -/
def jsParseInt (s : Str) : JSNum :=
  let t := jsTrimStart s
  if startsWithStr ('-' :: []) t then (jsParseIntCore (t.drop 1)).map (fun n => -(n : Int))
  else if startsWithStr ('+' :: []) t then (jsParseIntCore (t.drop 1)).map (fun n => (n : Int))
  else (jsParseIntCore t).map (fun n => (n : Int))

/-- Annotation record (`{id, start, end, text, type, normalizedId}` in the
source; `end` is reserved in Lean and is embedded as `stop`). -/
structure Annot where
  id : Str
  start : JSNum
  stop : JSNum
  text : Str
  type : Str
  normalizedId : Option Str
deriving DecidableEq

/-- Document record (`{id, title, abstract, annotations}`). -/
structure Document where
  id : Str
  title : Str
  abstract : Str
  annotations : List Annot
deriving DecidableEq

/-- Classification of an input line by `parsePubtator`: the branch taken
by the `if (line.includes('|t|')) ... else if (line.includes('|a|'))`
chain. -/
inductive LineKind where
  | title
  | abs
  | ann
deriving DecidableEq

/-- The title tag substring. -/
def titleTag : Str := '|' :: 't' :: '|' :: []

/-- The abstract tag substring. -/
def abstractTag : Str := '|' :: 'a' :: '|' :: []

/-- Line classification used by `parsePubtator`. -/
def lineKind (line : Str) : LineKind :=
  if substrContains titleTag line then .title
  else if substrContains abstractTag line then .abs
  else .ann

/-- Parser state: finished documents, the in-progress document
(`currentDoc`, `none` = JS `null`), and the entity-type set. -/
structure PState where
  docs : List Document
  currentDoc : Option Document
  entityTypes : List Str
deriving DecidableEq

/-- Result of `parsePubtator`. -/
structure PResult where
  docs : List Document
  entityTypes : List Str
deriving DecidableEq

/-- One loop iteration of `parsePubtator`. `Except.error ()` embeds the
TypeError thrown when `currentDoc` is `null` and the line dereferences it
(`currentDoc.abstract = ...` / `currentDoc.annotations.push(...)`). -/
def pstep (s : PState) (line : Str) : Except Unit PState :=
  match lineKind line with
  | .title =>
    let ps := splitOnChar '|' line
    .ok ⟨s.docs ++ s.currentDoc.toList,
         some ⟨ps.getD 0 [], ps.getD 2 [], [], []⟩,
         s.entityTypes⟩
  | .abs =>
    match s.currentDoc with
    | none => .error ()
    | some d =>
      let ps := splitOnChar '|' line
      .ok ⟨s.docs, some { d with abstract := ps.getD 2 [] }, s.entityTypes⟩
  | .ann =>
    if (jsTrim line).isEmpty then .ok s
    else
    let parts := splitOnChar '\t' line
    if parts.length ≥ 5 then
      match s.currentDoc with
      | none => .error ()
      | some d =>
        let a : Annot :=
          ⟨parts.getD 0 [], jsParseInt (parts.getD 1 []), jsParseInt (parts.getD 2 []),
           parts.getD 3 [], parts.getD 4 [],
           if parts.length ≥ 6 then some (parts.getD 5 []) else none⟩
        .ok ⟨s.docs, some { d with annotations := d.annotations ++ [a] },
             setAdd s.entityTypes (parts.getD 4 [])⟩
    else .ok s

/-- The parse loop over the (already filtered) line list. -/
def parseLinesGo (s : PState) : List Str → Except Unit PState
  | [] => .ok s
  | l :: ls =>
    match pstep s l with
    | .error e => .error e
    | .ok s2 => parseLinesGo s2 ls

/-- Embeds `parsePubtator` from the format codec: split on newlines, drop
lines that are empty after trimming, run the classification loop, then
append the trailing in-progress document. -/
def parsePubtator (content : Str) : Except Unit PResult :=
  let lines := (splitOnChar '\n' content).filter (fun l => !(jsTrim l).isEmpty)
  match parseLinesGo ⟨[], none, []⟩ lines with
  | .error e => .error e
  | .ok s => .ok ⟨s.docs ++ s.currentDoc.toList, s.entityTypes⟩

/-- The filtered line list `parsePubtator` iterates over. -/
def filteredLines (content : Str) : List Str :=
  (splitOnChar '\n' content).filter (fun l => !(jsTrim l).isEmpty)

/-- Serialized annotation line `id\tstart\tend\ttext\ttype` with
`\tnormalizedId` appended only when `normalizedId` is truthy
(non-null and non-empty). -/
def annoLine (a : Annot) : Str :=
  a.id ++ '\t' :: numToStr a.start ++ '\t' :: numToStr a.stop ++
    '\t' :: a.text ++ '\t' :: a.type ++
    (match a.normalizedId with
     | some s => if s.isEmpty then [] else '\t' :: s
     | none => [])

/-- The lines a well-formed document serializes to, without the trailing
empty separator line: title line, abstract line, one line per
annotation. -/
def cleanDocLines (d : Document) : List Str :=
  (d.id ++ titleTag ++ d.title) :: (d.id ++ abstractTag ++ d.abstract) ::
    d.annotations.map annoLine

/-- Serialized block for one document: title line, abstract line, one line
per annotation, then the separating empty line. -/
def docBlock (d : Document) : Str :=
  d.id ++ titleTag ++ d.title ++ '\n' ::
    (d.id ++ abstractTag ++ d.abstract ++ '\n' ::
      ((d.annotations.map (fun a => annoLine a ++ ['\n'])).flatten ++ ['\n']))

/-- Embeds `generateExportContent` from the format codec. -/
def generateExportContent (documents : List Document) : Str :=
  documents.foldl (fun content doc => content ++ docBlock doc) []

/-- Stable insertion used to embed `Array.prototype.sort(cmp)`: the next
element goes after every element the comparator does not place strictly
after it, so elements comparing equal keep their relative order, as
ECMA-262 requires of `Array.prototype.sort`. -/
def insSorted (cmp : α → α → Int) (x : α) : List α → List α
  | [] => [x]
  | y :: ys => if cmp y x ≤ 0 then y :: insSorted cmp x ys else x :: y :: ys

/-- Stable comparator sort (`Array.prototype.sort(cmp)`). -/
def jsSort (cmp : α → α → Int) (l : List α) : List α :=
  l.foldl (fun acc x => insSorted cmp x acc) []

/-- Comparator `(a, b) => a.start - b.start` used by `addAnnotation`. -/
def annotCmp (a b : Annot) : Int := jsNumCmp a.start b.start

/-- Embeds `addAnnotation` from `useAnnotationManager`: append the new
annotation with its `id` forced to the owning document's id, then sort
the document's annotation list by `start`. -/
def addAnnot (doc : Document) (a : Annot) : Document :=
  { doc with annotations := jsSort annotCmp (doc.annotations ++ [{ a with id := doc.id }]) }

/-- A sequence of `addAnnotation` calls on the same current document. -/
def addAnnotAll (doc : Document) (adds : List Annot) : Document :=
  adds.foldl addAnnot doc

/-- Highlight kind stored in a segment's `highlighted` field: JS `false`
(plain), `true` (explicit annotation), `'potential'`, or `'regex'`. -/
inductive Highlight where
  | plain
  | ann
  | potential
  | regex
deriving DecidableEq

/-- Kind tag of a candidate position (`type` field of the position
objects in the source). -/
inductive PosKind where
  | ann
  | potential
  | regex
deriving DecidableEq

/-- Candidate highlight position. Regex positions carry no `entityType`
(the field is absent, embedded as `none`). -/
structure Pos where
  start : JSNum
  stop : JSNum
  kind : PosKind
  entityType : Option Str
deriving DecidableEq

/-- Output segment. `start`/`stop` are absent (`none`) on plain gap
segments until `updateSegmentsWithPositions` fills them in. -/
structure Segment where
  text : Str
  highlighted : Highlight
  type : Option Str
  start : Option JSNum
  stop : Option JSNum
deriving DecidableEq

/-- Embeds `rangesOverlap(start1, end1, start2, end2)`:
`start1 < end2 && end1 > start2` with JS `NaN` comparison semantics. -/
def rangesOverlap (start1 end1 start2 end2 : JSNum) : Bool :=
  jsLt start1 end2 && jsGt end1 start2

/-- Embeds `createAnnotationPositions`. -/
def createAnnotationPositions (annotations : List Annot) : List Pos :=
  annotations.map (fun anno => ⟨anno.start, anno.stop, .ann, some anno.type⟩)

/-- Embeds `createUniqueTextMap`: JS `Map` as an insertion-ordered
association list; `Map.set` overwrites in place. Texts of length 1 are
kept only when they contain an ASCII digit, and only lengths 1–50 are
kept; keys are lowercased. -/
def mapSet (m : List (Str × Str)) (k v : Str) : List (Str × Str) :=
  if m.any (fun p => p.1 = k) then m.map (fun p => if p.1 = k then (k, v) else p)
  else m ++ [(k, v)]

/-- Condition under which `createUniqueTextMap` keeps an annotation's
text: `(length < 2 → contains a digit) && 1 ≤ length ≤ 50`. -/
def uniqueTextCond (t : Str) : Bool :=
  (if t.length < 2 then t.any isDigitChar else true) &&
    (1 ≤ t.length && t.length ≤ 50)

/-- Embeds `createUniqueTextMap` from the segmentation engine. -/
def createUniqueTextMap (annotations : List Annot) : List (Str × Str) :=
  annotations.foldl
    (fun m anno =>
      if uniqueTextCond anno.text then mapSet m (anno.text.map Char.toLower) anno.type
      else m)
    []

/-- Case-insensitive prefix match (JS regex `i` flag on an escaped
literal: simple case folding, embedded as `Char.toLower`). -/
def ciStartsWith : Str → Str → Bool
  | [], _ => true
  | _ :: _, [] => false
  | p :: ps, c :: cs => p.toLower = c.toLower && ciStartsWith ps cs

/-- Index of the first case-insensitive occurrence of `needle` in `hay`. -/
def ciFindFirst (needle : Str) : Str → Option Nat
  | [] => if ciStartsWith needle [] then some 0 else none
  | c :: cs =>
    if ciStartsWith needle (c :: cs) then some 0
    else (ciFindFirst needle cs).map (· + 1)

/-- Global scan of `new RegExp(escapeRegExp(needle), 'gi').exec` over the
text: the `(index, length)` list of the successive non-overlapping
matches, each `lastIndex` advancing past the previous match. `fuel`
bounds the loop; `hay.length + 1` always suffices for a non-empty
needle. -/
def ciScanAux (needle : Str) (fuel : Nat) (hay : Str) (offset : Nat) : List (Nat × Nat) :=
  match fuel with
  | 0 => []
  | fuel + 1 =>
    match ciFindFirst needle hay with
    | none => []
    | some j =>
      (offset + j, needle.length) ::
        ciScanAux needle fuel (hay.drop (j + needle.length)) (offset + j + needle.length)

/-- All case-insensitive literal matches of `needle` in `text`. -/
def ciScan (needle text : Str) : List (Nat × Nat) :=
  ciScanAux needle (text.length + 1) text 0

/-- Comparator `(a, b) => b[0].length - a[0].length` sorting the map
entries by descending text length. -/
def entryCmp (a b : Str × Str) : Int := (b.1.length : Int) - (a.1.length : Int)

/-- Acceptance step of `createPotentialMatches`: a candidate is appended
unless it overlaps an existing annotation position or an already
accepted potential position. -/
def potAccept (existing : List Pos) (acc : List Pos) (cand : Pos) : List Pos :=
  if (existing ++ acc).any (fun pos => rangesOverlap cand.start cand.stop pos.start pos.stop)
  then acc
  else acc ++ [cand]

/-- Candidate position for one literal match of a map entry. -/
def mkPotentialPos (m : Nat × Nat) (entityType : Str) : Pos :=
  ⟨some (m.1 : Int), some ((m.1 + m.2 : Nat) : Int), .potential, some entityType⟩

/-- Embeds `createPotentialMatches` from the segmentation engine: map
entries sorted by descending text length, each scanned case-insensitively
over the text, with overlap filtering against existing and previously
accepted positions. -/
def createPotentialMatches (text : Str) (uniqueTexts : List (Str × Str))
    (existingPositions : List Pos) : List Pos :=
  let sortedEntries := jsSort entryCmp uniqueTexts
  sortedEntries.foldl
    (fun acc kv =>
      (ciScan kv.1 text).foldl (fun acc2 m => potAccept existingPositions acc2 (mkPotentialPos m kv.2)) acc)
    []

/-- The JS regex engine for the user-supplied search pattern, abstracted:
given the pattern and the text it returns the `(index, length)` matches a
terminating `exec` loop would produce, or `none` when `new RegExp`
throws on a malformed pattern. -/
abbrev RegexEngine := Str → Str → Option (List (Nat × Nat))

/-- Candidate position for one regex match (no `entityType`). -/
def mkRegexPos (m : Nat × Nat) : Pos :=
  ⟨some (m.1 : Int), some ((m.1 + m.2 : Nat) : Int), .regex, none⟩

/-- Embeds `createRegexMatches`: empty or whitespace-only patterns yield
no matches; a pattern that fails to compile is caught and yields no
matches; otherwise each match is kept unless it overlaps an existing
position. -/
def createRegexMatches (engine : RegexEngine) (text : Str) (regexPattern : Str)
    (existingPositions : List Pos) : List Pos :=
  if regexPattern.isEmpty || (jsTrim regexPattern).isEmpty then []
  else
    match engine regexPattern text with
    | none => []
    | some ms =>
      (ms.map mkRegexPos).filter
        (fun cand =>
          !(existingPositions.any (fun pos => rangesOverlap cand.start cand.stop pos.start pos.stop)))

/-- Comparator `(a, b) => a.start - b.start` sorting merged positions. -/
def posCmp (a b : Pos) : Int := jsNumCmp a.start b.start

/-- Index conversion of JS `String.prototype.substring`: `NaN` becomes 0
and the index is clamped to `[0, length]`. -/
def jsIdx (x : JSNum) (n : Nat) : Nat :=
  match x with
  | none => 0
  | some i => min i.toNat n

/-- JS `text.substring(a, b)` (indices converted, clamped and swapped if
needed). -/
def jsSubstring (s : Str) (a b : JSNum) : Str :=
  let ia := jsIdx a s.length
  let ib := jsIdx b s.length
  (s.drop (min ia ib)).take (max ia ib - min ia ib)

/-- JS `text.substring(a)` (missing end index means end of string). -/
def jsSubstringFrom (s : Str) (a : JSNum) : Str :=
  jsSubstring s a (some (s.length : Int))

/-- The `highlighted` value of a highlighted segment:
`pos.type === 'annotation' ? true : pos.type`. -/
def highlightOf (k : PosKind) : Highlight :=
  match k with
  | .ann => .ann
  | .potential => .potential
  | .regex => .regex

/-- Walk of `createTextSegments`: emit a plain segment for each gap
before a position, the highlighted segment for the position, and a
trailing plain segment for any remainder after the last position. -/
def ctsGo (text : Str) (lastEnd : JSNum) : List Pos → List Segment
  | [] =>
    if jsLt lastEnd (some (text.length : Int)) then
      [⟨jsSubstringFrom text lastEnd, .plain, none, none, none⟩]
    else []
  | pos :: rest =>
    (if jsGt pos.start lastEnd then
      [(⟨jsSubstring text lastEnd pos.start, .plain, none, none, none⟩ : Segment)]
     else []) ++
      ⟨jsSubstring text pos.start pos.stop, highlightOf pos.kind, pos.entityType,
        some pos.start, some pos.stop⟩ ::
        ctsGo text pos.stop rest

/-- Embeds `createTextSegments` from the segmentation engine. -/
def createTextSegments (text : Str) (positions : List Pos) : List Segment :=
  ctsGo text (some 0) positions

/-- Annotation lookup of `updateSegmentsWithPositions`: the first
annotation whose extracted substring equals the segment text and whose
recorded start is within 5 of the current walk position. -/
def findNearbyAnnot (annotations : List Annot) (combinedText : Str) (segText : Str)
    (currentPosition : Nat) : Option Annot :=
  annotations.find?
    (fun anno =>
      jsSubstring combinedText anno.start anno.stop = segText &&
        (match anno.start with
         | some s => (s - (currentPosition : Int)).natAbs < 5
         | none => false))

/-- Embeds `updateSegmentsWithPositions`: recompute every segment's
`start`/`stop` from the cumulative walk position, except that an
annotation segment matching a nearby annotation takes that annotation's
stored offsets. -/
def uswpGo (annotations : List Annot) (combinedText : Str) (currentPosition : Nat) :
    List Segment → List Segment
  | [] => []
  | seg :: rest =>
    let base : Segment :=
      { seg with
        start := some (some (currentPosition : Int)),
        stop := some (some ((currentPosition + seg.text.length : Nat) : Int)) }
    let upd : Segment :=
      if seg.highlighted = .ann then
        match findNearbyAnnot annotations combinedText seg.text currentPosition with
        | some anno => { base with start := some anno.start, stop := some anno.stop }
        | none => base
      else base
    upd :: uswpGo annotations combinedText (currentPosition + seg.text.length) rest

/-- Embeds `updateSegmentsWithPositions` from the segmentation engine. -/
def updateSegmentsWithPositions (segments : List Segment) (annotations : List Annot)
    (combinedText : Str) : List Segment :=
  uswpGo annotations combinedText 0 segments

/-- The merged candidate list of `processTextSegments` before sorting:
annotation positions, then accepted potential positions, then accepted
regex positions. -/
def acceptedPositions (engine : RegexEngine) (combinedText : Str) (annotations : List Annot)
    (regexPattern : Str) : List Pos :=
  let annotationPositions := createAnnotationPositions annotations
  let uniqueAnnotatedTexts := createUniqueTextMap annotations
  let potentialPositions := createPotentialMatches combinedText uniqueAnnotatedTexts annotationPositions
  let allPositions := annotationPositions ++ potentialPositions
  let regexPositions := createRegexMatches engine combinedText regexPattern allPositions
  allPositions ++ regexPositions

/-- Embeds `processTextSegments` from the segmentation engine. -/
def processTextSegments (engine : RegexEngine) (combinedText : Str) (annotations : List Annot)
    (regexPattern : Str) : List Segment :=
  if combinedText.isEmpty then []
  else
    let positions := jsSort posCmp (acceptedPositions engine combinedText annotations regexPattern)
    let segments := createTextSegments combinedText positions
    updateSegmentsWithPositions segments annotations combinedText

/-- Concatenation of the text fields of a segment list. -/
def segConcat (segments : List Segment) : Str :=
  (segments.map (fun seg => seg.text)).flatten

/-- Well-formedness of one annotation span against a text of length `n`:
integer offsets with `0 <= start < end <= n`. -/
def annotSpanOK (n : Nat) (a : Annot) : Bool :=
  match a.start, a.stop with
  | some s, some e => 0 ≤ s && s < e && e ≤ (n : Int)
  | _, _ => false

/-- Invariant of the left-to-right segment walk: starting from offset
`le`, every position has integer offsets, starts no earlier than `le`,
is non-empty, ends within the text, and the rest of the list respects
the same discipline from its end. -/
def WalkOK (n : Nat) (le : Int) : List Pos → Prop
  | [] => True
  | p :: ps => ∃ s e : Int, p.start = some s ∧ p.stop = some e ∧
      le ≤ s ∧ s < e ∧ e ≤ (n : Int) ∧ WalkOK n e ps

/-- A candidate position with integer offsets, non-empty and inside a
text of length `n`. -/
def posOK (n : Nat) (p : Pos) : Prop :=
  ∃ s e : Int, p.start = some s ∧ p.stop = some e ∧ 0 ≤ s ∧ s < e ∧ e ≤ (n : Int)

/-- Two candidate positions that do not overlap in the sense of
`rangesOverlap`. -/
def noOv (p q : Pos) : Prop :=
  rangesOverlap p.start p.stop q.start q.stop = false

/-- A field of a serialized annotation line that survives the round trip:
no tab, no newline, and neither record tag as a substring. -/
def lineSafeField (s : Str) : Bool :=
  !(s.contains '\t') && !(s.contains '\n') &&
    !(substrContains titleTag s) && !(substrContains abstractTag s)

/-- A document id/title/abstract that survives the round trip: no pipe
and no newline. -/
def headerSafe (s : Str) : Bool := !(s.contains '|') && !(s.contains '\n')

/-- Annotation well-formedness exactly as claim C1 states it: only the
`text`, `type` and `normalizedId` fields are constrained (no tab,
newline or record tag), `start`/`end` are integers, and `normalizedId`
is null or non-empty. -/
def annWFclaim (a : Annot) : Bool :=
  lineSafeField a.text && lineSafeField a.type &&
    a.start.isSome && a.stop.isSome &&
    (match a.normalizedId with
     | none => true
     | some s => !s.isEmpty && lineSafeField s)

/-- Document-set well-formedness exactly as claim C1 states it. -/
def docWFclaim (d : Document) : Bool := d.annotations.all annWFclaim

/-- Annotation well-formedness actually needed for the round trip: the
claim's conditions plus the annotation id being line-safe. -/
def annWFexport (a : Annot) : Bool := lineSafeField a.id && annWFclaim a

/-- Document well-formedness actually needed for the round trip: the
id, title and abstract contain no pipe and no newline, and every
annotation is export-well-formed. -/
def docWFexport (d : Document) : Bool :=
  headerSafe d.id && headerSafe d.title && headerSafe d.abstract &&
    d.annotations.all annWFexport

/-- The annotation fields compared by the round-trip contract. -/
def annKey (a : Annot) : JSNum × JSNum × Str × Str × Option Str :=
  (a.start, a.stop, a.text, a.type, a.normalizedId)

/-- The document fields compared by the round-trip contract (annotation
ids are not compared; the entity-type set is recomputed). -/
def stripDoc (d : Document) : Str × Str × Str × List (JSNum × JSNum × Str × Str × Option Str) :=
  (d.id, d.title, d.abstract, d.annotations.map annKey)

/-- The parsed document list, `none` when `parsePubtator` throws. -/
def parsedDocs (content : Str) : Option (List Document) :=
  match parsePubtator content with
  | .ok r => some r.docs
  | .error _ => none

/-! ### String helper lemmas -/

theorem startsWithStr_iff (p : Str) : ∀ l : Str, startsWithStr p l = true ↔ p <+: l := by
  induction p with
  | nil => intro l; simp [startsWithStr, List.nil_prefix]
  | cons c cs ih =>
    intro l
    cases l with
    | nil => simp [startsWithStr]
    | cons d ds =>
      simp only [startsWithStr, Bool.and_eq_true, decide_eq_true_eq, ih,
        List.cons_prefix_cons]

theorem substrContains_iff (p : Str) : ∀ l : Str, substrContains p l = true ↔ p <:+: l := by
  intro l
  induction l with
  | nil =>
    simp [substrContains, startsWithStr_iff, List.prefix_nil, List.infix_nil]
  | cons c cs ih =>
    simp only [substrContains, Bool.or_eq_true, startsWithStr_iff, ih,
      List.infix_cons_iff]

theorem splitOnChar_ne_nil (c : Char) (l : Str) : splitOnChar c l ≠ [] := by
  induction l with
  | nil => simp [splitOnChar]
  | cons x xs ih =>
    simp only [splitOnChar]
    cases h : splitOnChar c xs with
    | nil => exact absurd h ih
    | cons hh tt =>
      by_cases hx : x = c <;> simp [hx]

theorem splitOnChar_no_sep (c : Char) : ∀ l : Str, c ∉ l → splitOnChar c l = [l] := by
  intro l
  induction l with
  | nil => intro _; rfl
  | cons x xs ih =>
    intro h
    have hx : ¬ x = c := fun he => h (he ▸ List.mem_cons_self x xs)
    have hxs : c ∉ xs := fun hm => h (List.mem_cons_of_mem x hm)
    simp only [splitOnChar, ih hxs]
    simp [hx]

theorem splitOnChar_sep (c : Char) (a b : Str) :
    splitOnChar c (a ++ c :: b) = splitOnChar c a ++ splitOnChar c b := by
  induction a with
  | nil =>
    simp only [List.nil_append, splitOnChar]
    cases h : splitOnChar c b with
    | nil => exact absurd h (splitOnChar_ne_nil c b)
    | cons hh tt => simp [h]
  | cons x xs ih =>
    simp only [List.cons_append, splitOnChar]
    cases h : splitOnChar c xs with
    | nil => exact absurd h (splitOnChar_ne_nil c xs)
    | cons hh tt =>
      have ih2 : splitOnChar c (xs.append (c :: b)) = (hh :: tt) ++ splitOnChar c b := by
        rw [← h]; exact ih
      rw [ih2]
      by_cases hx : x = c <;> simp [hx]

theorem jsTrim_ne_nil_of_mem (l : Str) (ch : Char) (hm : ch ∈ l)
    (hw : jsIsWhiteChar ch = false) : jsTrim l ≠ [] := by
  intro he
  have h1 : jsTrimStart l = [] → False := by
    intro h1
    have := List.dropWhile_eq_nil_iff.1 h1 ch hm
    simp [hw] at this
  apply h1
  have h2 : (jsTrimStart l).reverse.dropWhile jsIsWhiteChar = [] := by
    have : ((jsTrimStart l).reverse.dropWhile jsIsWhiteChar).reverse = [] := he
    simpa using this
  have h3 : ∀ x ∈ (jsTrimStart l).reverse, jsIsWhiteChar x := List.dropWhile_eq_nil_iff.1 h2
  cases hts : jsTrimStart l with
  | nil => rfl
  | cons y ys =>
    exfalso
    have hy : ¬ jsIsWhiteChar y := by
      have : jsTrimStart l = List.dropWhile jsIsWhiteChar l := rfl
      have hhd := List.head?_dropWhile_not jsIsWhiteChar l
      rw [← this, hts] at hhd
      simpa using hhd
    exact hy (h3 y (by simp [hts]))

/-! ### Parser lemmas -/

theorem lineKind_eq_ann (line : Str) (h1 : substrContains titleTag line = false)
    (h2 : substrContains abstractTag line = false) : lineKind line = .ann := by
  simp [lineKind, h1, h2]

theorem lineKind_eq_abs (line : Str) (h1 : substrContains titleTag line = false)
    (h2 : substrContains abstractTag line = true) : lineKind line = .abs := by
  simp [lineKind, h1, h2]

theorem pstep_skip (s : PState) (line : Str) (h1 : lineKind line = .ann)
    (h2 : (splitOnChar '\t' line).length < 5) : pstep s line = .ok s := by
  unfold pstep
  rw [h1]
  by_cases htrim : (jsTrim line).isEmpty = true
  · rw [if_pos htrim]
  · rw [if_neg htrim]
    have : ¬ (splitOnChar '\t' line).length ≥ 5 := by omega
    simp [this]

theorem parseLinesGo_append (s : PState) (a b : List Str) :
    parseLinesGo s (a ++ b) =
      match parseLinesGo s a with
      | .error e => .error e
      | .ok s2 => parseLinesGo s2 b := by
  induction a generalizing s with
  | nil => simp [parseLinesGo]
  | cons l ls ih =>
    simp only [List.cons_append, parseLinesGo]
    cases pstep s l with
    | error e => rfl
    | ok s2 => exact ih s2

/-- C7: a non-empty line that is neither a title line nor an abstract line
and splits into fewer than 5 tab-separated fields is silently skipped:
removing it from the input leaves the entire parse result unchanged (so it
adds no annotation and no entity type, and parsing of the remaining lines
continues unaffected rather than aborting). -/
theorem claim_C7 (c1 c2 line : Str) (hnl : '\n' ∉ line) (hne : jsTrim line ≠ [])
    (ht : substrContains titleTag line = false)
    (ha : substrContains abstractTag line = false)
    (hparts : (splitOnChar '\t' line).length < 5) :
    parsePubtator (c1 ++ '\n' :: line ++ '\n' :: c2) = parsePubtator (c1 ++ '\n' :: c2) := by
  have hpp : ∀ content : Str, parsePubtator content =
      match parseLinesGo ⟨[], none, []⟩ (filteredLines content) with
      | .error e => .error e
      | .ok s => .ok ⟨s.docs ++ s.currentDoc.toList, s.entityTypes⟩ := fun _ => rfl
  have hbe : (!(jsTrim line).isEmpty) = true := by simp [List.isEmpty_iff, hne]
  have hf1 : filteredLines (c1 ++ '\n' :: line ++ '\n' :: c2) =
      filteredLines c1 ++ (line :: filteredLines c2) := by
    unfold filteredLines
    rw [splitOnChar_sep, splitOnChar_sep, splitOnChar_no_sep '\n' line hnl,
      List.filter_append, List.filter_append]
    simp [List.filter_cons, hbe]
  have hf2 : filteredLines (c1 ++ '\n' :: c2) = filteredLines c1 ++ filteredLines c2 := by
    unfold filteredLines
    rw [splitOnChar_sep, List.filter_append]
  rw [hpp, hpp, hf1, hf2, parseLinesGo_append, parseLinesGo_append]
  cases parseLinesGo ⟨[], none, []⟩ (filteredLines c1) with
  | error e => rfl
  | ok s2 =>
    have hstep : parseLinesGo s2 (line :: filteredLines c2) = parseLinesGo s2 (filteredLines c2) := by
      simp only [parseLinesGo, pstep_skip s2 line (lineKind_eq_ann line ht ha) hparts]
    simp only [hstep]

/-- Witness for C7 at a concrete input: the malformed annotation line
"bad line" (two tab-separated fields) inside a one-document file is
skipped without affecting the rest of the parse. -/
theorem claim_C7_witness :
    parsePubtator ("d|t|T".toList ++ '\n' :: "bad\tline".toList ++ '\n' :: "d|a|A".toList) =
      parsePubtator ("d|t|T".toList ++ '\n' :: "d|a|A".toList) :=
  claim_C7 "d|t|T".toList "d|a|A".toList "bad\tline".toList (by decide) (by decide)
    (by decide) (by decide) (by decide)

theorem parseLinesGo_skipAll (pre : List Str)
    (h : ∀ l ∈ pre, substrContains titleTag l = false ∧
      substrContains abstractTag l = false ∧ (splitOnChar '\t' l).length < 5) :
    ∀ s : PState, parseLinesGo s pre = .ok s := by
  induction pre with
  | nil => intro s; rfl
  | cons l ls ih =>
    intro s
    obtain ⟨h1, h2, h3⟩ := h l (List.mem_cons_self l ls)
    have hih := ih (fun x hx => h x (List.mem_cons_of_mem l hx))
    simp only [parseLinesGo, pstep_skip s l (lineKind_eq_ann l h1 h2) h3]
    exact hih s

/-- C8: when an abstract line (containing the tag `|a|` and not `|t|`)
appears in the input before any title line has created a current document
(every earlier surviving line being an ignored malformed line), the parse
dereferences the null `currentDoc` and throws instead of returning a
result. -/
theorem claim_C8 (content : Str) (pre rest : List Str) (aline : Str)
    (hdec : filteredLines content = pre ++ aline :: rest)
    (hpre : ∀ l ∈ pre, substrContains titleTag l = false ∧
      substrContains abstractTag l = false ∧ (splitOnChar '\t' l).length < 5)
    (ht : substrContains titleTag aline = false)
    (ha : substrContains abstractTag aline = true) :
    parsePubtator content = .error () := by
  have hpp : parsePubtator content =
      match parseLinesGo ⟨[], none, []⟩ (filteredLines content) with
      | .error e => .error e
      | .ok s => .ok ⟨s.docs ++ s.currentDoc.toList, s.entityTypes⟩ := rfl
  rw [hpp, hdec, parseLinesGo_append, parseLinesGo_skipAll pre hpre]
  have hstep : pstep ⟨[], none, []⟩ aline = .error () := by
    unfold pstep
    rw [lineKind_eq_abs aline ht ha]
  simp only [parseLinesGo, hstep]

/-- Witness for C8: the single-line input "123|a|hello" makes
`parsePubtator` throw. -/
theorem claim_C8_witness : parsePubtator ("123|a|hello".toList) = .error () :=
  claim_C8 "123|a|hello".toList [] [] "123|a|hello".toList (by decide)
    (by decide) (by decide) (by decide)

/-- C10: `parsePubtator` classifies a line as a title record exactly when
it contains the substring `|t|` anywhere; consequently the annotation
record `d1<TAB>0<TAB>2<TAB>a|t|b<TAB>Gene`, whose text field contains
`|t|`, is treated as a title line: it finalizes the current document
(which keeps no annotation) and starts a new document with id
`d1<TAB>0<TAB>2<TAB>a` and title `b<TAB>Gene`. -/
theorem claim_C10 :
    (∀ line : Str, lineKind line = LineKind.title ↔ substrContains titleTag line = true) ∧
    parsePubtator ("d1|t|T\nd1|a|A\nd1\t0\t2\ta|t|b\tGene\n".toList) =
      .ok ⟨[⟨"d1".toList, "T".toList, "A".toList, []⟩,
            ⟨"d1\t0\t2\ta".toList, "b\tGene".toList, [], []⟩], []⟩ := by
  constructor
  · intro line
    unfold lineKind
    by_cases h : substrContains titleTag line = true
    · simp [h]
    · simp only [Bool.not_eq_true] at h
      simp only [h]
      constructor
      · intro hc
        by_cases h2 : substrContains abstractTag line = true <;> simp [h2] at hc
      · intro hc
        simp at hc
  · rfl

/-! ### Segmentation: unique-text map and potential matches -/

theorem uniqueTextCond_iff (t : Str) :
    uniqueTextCond t = true ↔
      1 ≤ t.length ∧ t.length ≤ 50 ∧ (t.length = 1 → t.any isDigitChar = true) := by
  unfold uniqueTextCond
  by_cases h : t.length < 2
  · simp only [if_pos h, Bool.and_eq_true, decide_eq_true_eq]
    constructor
    · rintro ⟨hd, h1, h50⟩
      exact ⟨h1, h50, fun _ => hd⟩
    · rintro ⟨h1, h50, hd⟩
      exact ⟨hd (by omega), h1, h50⟩
  · simp only [if_neg h, Bool.true_and, Bool.and_eq_true, decide_eq_true_eq]
    constructor
    · rintro ⟨h1, h50⟩
      exact ⟨h1, h50, fun he => absurd he (by omega)⟩
    · rintro ⟨h1, h50, _⟩
      exact ⟨h1, h50⟩

theorem mapSet_hasKey (m : List (Str × Str)) (k v k' : Str) :
    (∃ p ∈ mapSet m k v, p.1 = k') ↔ (∃ p ∈ m, p.1 = k') ∨ k = k' := by
  unfold mapSet
  by_cases hk : m.any (fun p => p.1 = k) = true
  · rw [if_pos hk]
    rw [List.any_eq_true] at hk
    obtain ⟨q0, hq0, hq0k⟩ := hk
    simp only [decide_eq_true_eq] at hq0k
    constructor
    · rintro ⟨p, hp, hpk⟩
      rw [List.mem_map] at hp
      obtain ⟨q, hq, rfl⟩ := hp
      by_cases hqk : q.1 = k
      · right
        rw [if_pos hqk] at hpk
        exact hpk
      · left
        rw [if_neg hqk] at hpk
        exact ⟨q, hq, hpk⟩
    · rintro (⟨p, hp, hpk⟩ | rfl)
      · by_cases hpk2 : p.1 = k
        · refine ⟨(k, v), List.mem_map.2 ⟨p, hp, by rw [if_pos hpk2]⟩, ?_⟩
          rw [← hpk2, hpk]
        · exact ⟨p, List.mem_map.2 ⟨p, hp, by rw [if_neg hpk2]⟩, hpk⟩
      · exact ⟨(k, v), List.mem_map.2 ⟨q0, hq0, by rw [if_pos hq0k]⟩, rfl⟩
  · rw [if_neg hk]
    rw [List.any_eq_true] at hk
    push_neg at hk
    constructor
    · rintro ⟨p, hp, hpk⟩
      rw [List.mem_append] at hp
      cases hp with
      | inl h => exact Or.inl ⟨p, h, hpk⟩
      | inr h =>
        rw [List.mem_singleton] at h
        subst h
        exact Or.inr hpk
    · rintro (⟨p, hp, hpk⟩ | rfl)
      · exact ⟨p, List.mem_append_left _ hp, hpk⟩
      · exact ⟨(k, v), List.mem_append_right _ (List.mem_singleton.2 rfl), rfl⟩

theorem createUniqueTextMap_hasKey (annos : List Annot) (k : Str) :
    (∃ p ∈ createUniqueTextMap annos, p.1 = k) ↔
      ∃ a ∈ annos, uniqueTextCond a.text = true ∧ a.text.map Char.toLower = k := by
  have key : ∀ (l : List Annot) (m : List (Str × Str)),
      (∃ p ∈ l.foldl
          (fun m anno =>
            if uniqueTextCond anno.text then mapSet m (anno.text.map Char.toLower) anno.type
            else m) m, p.1 = k) ↔
        (∃ p ∈ m, p.1 = k) ∨
          ∃ a ∈ l, uniqueTextCond a.text = true ∧ a.text.map Char.toLower = k := by
    intro l
    induction l with
    | nil => simp
    | cons a as ih =>
      intro m
      simp only [List.foldl_cons]
      by_cases hc : uniqueTextCond a.text = true
      · rw [if_pos hc, ih, mapSet_hasKey]
        simp only [List.mem_cons]
        constructor
        · rintro ((hm | hkk) | ⟨x, hx, hcx, hlx⟩)
          · exact Or.inl hm
          · exact Or.inr ⟨a, Or.inl rfl, hc, hkk⟩
          · exact Or.inr ⟨x, Or.inr hx, hcx, hlx⟩
        · rintro (hm | ⟨x, (rfl | hx), hcx, hlx⟩)
          · exact Or.inl (Or.inl hm)
          · exact Or.inl (Or.inr hlx)
          · exact Or.inr ⟨x, hx, hcx, hlx⟩
      · rw [if_neg hc, ih]
        simp only [List.mem_cons]
        constructor
        · rintro (hm | ⟨x, hx, hcx, hlx⟩)
          · exact Or.inl hm
          · exact Or.inr ⟨x, Or.inr hx, hcx, hlx⟩
        · rintro (hm | ⟨x, (rfl | hx), hcx, hlx⟩)
          · exact Or.inl hm
          · exact absurd hcx hc
          · exact Or.inr ⟨x, hx, hcx, hlx⟩
  have h0 := key annos []
  simp only [List.not_mem_nil, false_and, exists_false, false_or] at h0
  exact h0

/-- C4: the potential-match candidate map keeps exactly the annotation
texts (lowercased) whose length is between 1 and 50, where a length-1
text needs at least one ASCII digit; concretely, on the text "a 5 a 5" an
annotation with text "a" produces no potential span elsewhere, while an
annotation with text "5" produces one. -/
theorem claim_C4 :
    (∀ (annos : List Annot) (k : Str),
      (∃ p ∈ createUniqueTextMap annos, p.1 = k) ↔
        ∃ a ∈ annos,
          (1 ≤ a.text.length ∧ a.text.length ≤ 50 ∧
            (a.text.length = 1 → a.text.any isDigitChar = true)) ∧
          a.text.map Char.toLower = k) ∧
    createPotentialMatches "a 5 a 5".toList
        (createUniqueTextMap [⟨"d".toList, some 0, some 1, "a".toList, "X".toList, none⟩])
        (createAnnotationPositions [⟨"d".toList, some 0, some 1, "a".toList, "X".toList, none⟩]) =
      [] ∧
    createPotentialMatches "a 5 a 5".toList
        (createUniqueTextMap [⟨"d".toList, some 2, some 3, "5".toList, "Y".toList, none⟩])
        (createAnnotationPositions [⟨"d".toList, some 2, some 3, "5".toList, "Y".toList, none⟩]) =
      [⟨some 6, some 7, PosKind.potential, some "Y".toList⟩] := by
  refine ⟨?_, by decide, by decide⟩
  intro annos k
  rw [createUniqueTextMap_hasKey]
  constructor
  · rintro ⟨a, ha, hc, hl⟩
    exact ⟨a, ha, (uniqueTextCond_iff a.text).1 hc, hl⟩
  · rintro ⟨a, ha, hc, hl⟩
    exact ⟨a, ha, (uniqueTextCond_iff a.text).2 hc, hl⟩

/-- C3: with annotations "p53" (Gene) and "p53 protein" (Protein) both
present in the text, the potential-match pass processes entries by
descending text length, so the unannotated occurrence inside
"the p53 protein is" yields a single potential span covering
"p53 protein" with type Protein, with no overlapping or shorter span. -/
theorem claim_C3 :
    createPotentialMatches "p53 p53 protein the p53 protein is x".toList
        (createUniqueTextMap
          [⟨"d".toList, some 0, some 3, "p53".toList, "Gene".toList, none⟩,
           ⟨"d".toList, some 4, some 15, "p53 protein".toList, "Protein".toList, none⟩])
        (createAnnotationPositions
          [⟨"d".toList, some 0, some 3, "p53".toList, "Gene".toList, none⟩,
           ⟨"d".toList, some 4, some 15, "p53 protein".toList, "Protein".toList, none⟩]) =
      [⟨some 20, some 31, PosKind.potential, some "Protein".toList⟩] := by
  decide

/-! ### Regex pass error handling and edge cases -/

/-- C6: when the supplied search pattern fails to compile (the engine
returns `none`, embedding the caught `new RegExp` exception), the
regex-match pass returns no positions for any existing-position list, and
the whole segmentation output equals the output with no pattern at all. -/
theorem claim_C6 (engine : RegexEngine) (text pattern : Str) (annos : List Annot)
    (hbad : engine pattern text = none) :
    (∀ existingPositions : List Pos,
      createRegexMatches engine text pattern existingPositions = []) ∧
    processTextSegments engine text annos pattern = processTextSegments engine text annos [] := by
  have h1 : ∀ existingPositions : List Pos,
      createRegexMatches engine text pattern existingPositions = [] := by
    intro ex
    unfold createRegexMatches
    by_cases hp : (pattern.isEmpty || (jsTrim pattern).isEmpty) = true
    · rw [if_pos hp]
    · rw [if_neg hp, hbad]
  refine ⟨h1, ?_⟩
  unfold processTextSegments
  by_cases he : text.isEmpty = true
  · rw [if_pos he, if_pos he]
  · rw [if_neg he, if_neg he]
    have h2 : acceptedPositions engine text annos pattern = acceptedPositions engine text annos [] := by
      simp only [acceptedPositions, h1]
      rfl
    rw [h2]

/-- Witness for C6: an engine that rejects every pattern (as `new RegExp`
does on the malformed pattern "(") yields no regex positions and leaves
the segmentation of "ab" unchanged. -/
theorem claim_C6_witness :
    (∀ existingPositions : List Pos,
      createRegexMatches (fun _ _ => none) "ab".toList "(".toList existingPositions = []) ∧
    processTextSegments (fun _ _ => none) "ab".toList [] "(".toList =
      processTextSegments (fun _ _ => none) "ab".toList [] [] :=
  claim_C6 (fun _ _ => none) "ab".toList "(".toList [] rfl

/-- C9: segmenting an empty combined text yields the empty segment list,
and segmenting a non-empty text with no annotations and an empty pattern
yields exactly one plain (non-highlighted) segment covering the whole
text. -/
theorem claim_C9 :
    (∀ (engine : RegexEngine) (annos : List Annot) (pattern : Str),
      processTextSegments engine [] annos pattern = []) ∧
    (∀ (engine : RegexEngine) (text : Str), text ≠ [] →
      processTextSegments engine text [] [] =
        [⟨text, Highlight.plain, none, some (some 0), some (some (text.length : Int))⟩]) := by
  constructor
  · intro engine annos pattern
    rfl
  · intro engine text htext
    have hlen : 0 < text.length := List.length_pos.2 htext
    have hne : ¬ text.isEmpty = true := by simp [List.isEmpty_iff, htext]
    unfold processTextSegments
    rw [if_neg hne]
    have hacc : acceptedPositions engine text [] [] = [] := rfl
    rw [hacc]
    have hsub : jsSubstringFrom text (some 0) = text := by
      unfold jsSubstringFrom jsSubstring jsIdx
      simp
    have hcts : createTextSegments text (jsSort posCmp []) =
        [⟨text, Highlight.plain, none, none, none⟩] := by
      show ctsGo text (some 0) [] = _
      unfold ctsGo
      have hlt : jsLt (some 0) (some (text.length : Int)) = true := by
        simp only [jsLt, decide_eq_true_eq]
        exact_mod_cast hlen
      rw [if_pos hlt, hsub]
    simp only [hcts, updateSegmentsWithPositions, uswpGo]
    simp

/-- Witness for C9: segmenting "ab" with no annotations and no pattern
yields one plain segment spanning the whole text. -/
theorem claim_C9_witness :
    processTextSegments (fun _ _ => none) "ab".toList [] [] =
      [⟨"ab".toList, Highlight.plain, none, some (some 0), some (some 2)⟩] :=
  claim_C9.2 (fun _ _ => none) "ab".toList (by decide)

/-! ### Stable sort lemmas for `Array.prototype.sort` -/

theorem insSorted_perm (cmp : α → α → Int) (x : α) (l : List α) :
    (insSorted cmp x l).Perm (x :: l) := by
  induction l with
  | nil => exact List.Perm.refl _
  | cons y ys ih =>
    unfold insSorted
    by_cases h : cmp y x ≤ 0
    · rw [if_pos h]
      exact (ih.cons y).trans (List.Perm.swap x y ys)
    · rw [if_neg h]

theorem jsSort_go_perm (cmp : α → α → Int) :
    ∀ (l acc : List α), (l.foldl (fun a x => insSorted cmp x a) acc).Perm (acc ++ l) := by
  intro l
  induction l with
  | nil => intro acc; simp
  | cons x xs ih =>
    intro acc
    simp only [List.foldl_cons]
    refine (ih (insSorted cmp x acc)).trans ?_
    refine (List.Perm.append_right xs ((insSorted_perm cmp x acc))).trans ?_
    exact List.perm_middle.symm

theorem jsSort_perm (cmp : α → α → Int) (l : List α) : (jsSort cmp l).Perm l := by
  have := jsSort_go_perm cmp l []
  simpa [jsSort] using this

theorem insSorted_pairwise (cmp : α → α → Int) (x : α) (l : List α)
    (htot : ∀ a b, cmp a b ≤ 0 ∨ cmp b a ≤ 0)
    (htrans : ∀ a b c, a ∈ x :: l → b ∈ x :: l → c ∈ x :: l →
      cmp a b ≤ 0 → cmp b c ≤ 0 → cmp a c ≤ 0)
    (hp : l.Pairwise (fun a b => cmp a b ≤ 0)) :
    (insSorted cmp x l).Pairwise (fun a b => cmp a b ≤ 0) := by
  induction l with
  | nil => simp [insSorted]
  | cons y ys ih =>
    rw [List.pairwise_cons] at hp
    obtain ⟨hy, hys⟩ := hp
    unfold insSorted
    by_cases h : cmp y x ≤ 0
    · rw [if_pos h]
      rw [List.pairwise_cons]
      constructor
      · intro z hz
        rw [(insSorted_perm cmp x ys).mem_iff, List.mem_cons] at hz
        cases hz with
        | inl hzx => exact hzx ▸ h
        | inr hzys => exact hy z hzys
      · exact ih (fun a b c ha hb hc => htrans a b c
          (by rcases List.mem_cons.1 ha with h1 | h1
              · exact h1 ▸ List.mem_cons_self _ _
              · exact List.mem_cons_of_mem _ (List.mem_cons_of_mem _ h1))
          (by rcases List.mem_cons.1 hb with h1 | h1
              · exact h1 ▸ List.mem_cons_self _ _
              · exact List.mem_cons_of_mem _ (List.mem_cons_of_mem _ h1))
          (by rcases List.mem_cons.1 hc with h1 | h1
              · exact h1 ▸ List.mem_cons_self _ _
              · exact List.mem_cons_of_mem _ (List.mem_cons_of_mem _ h1))) hys
    · rw [if_neg h]
      rw [List.pairwise_cons]
      constructor
      · intro z hz
        rw [List.mem_cons] at hz
        cases hz with
        | inl hzy =>
          subst hzy
          rcases htot x z with h1 | h1
          · exact h1
          · exact absurd h1 h
        | inr hzys =>
          rcases htot x z with h1 | h1
          · exact h1
          · exfalso
            apply h
            refine htrans y z x ?_ ?_ ?_ (hy z hzys) h1
            · exact List.mem_cons_of_mem _ (List.mem_cons_self _ _)
            · exact List.mem_cons_of_mem _ (List.mem_cons_of_mem _ hzys)
            · exact List.mem_cons_self _ _
      · exact List.pairwise_cons.2 ⟨hy, hys⟩

theorem jsSort_pairwise (cmp : α → α → Int) (l : List α)
    (htot : ∀ a b, cmp a b ≤ 0 ∨ cmp b a ≤ 0)
    (htrans : ∀ a b c, a ∈ l → b ∈ l → c ∈ l →
      cmp a b ≤ 0 → cmp b c ≤ 0 → cmp a c ≤ 0) :
    (jsSort cmp l).Pairwise (fun a b => cmp a b ≤ 0) := by
  have key : ∀ (rest acc : List α), (∀ a ∈ acc, a ∈ l) → (∀ a ∈ rest, a ∈ l) →
      acc.Pairwise (fun a b => cmp a b ≤ 0) →
      (rest.foldl (fun a x => insSorted cmp x a) acc).Pairwise (fun a b => cmp a b ≤ 0) := by
    intro rest
    induction rest with
    | nil => intro acc _ _ hp; exact hp
    | cons x xs ih =>
      intro acc hacc hrest hp
      simp only [List.foldl_cons]
      refine ih (insSorted cmp x acc) ?_ (fun a ha => hrest a (List.mem_cons_of_mem _ ha)) ?_
      · intro a ha
        rw [(insSorted_perm cmp x acc).mem_iff, List.mem_cons] at ha
        cases ha with
        | inl h => exact h ▸ hrest x (List.mem_cons_self _ _)
        | inr h => exact hacc a h
      · refine insSorted_pairwise cmp x acc htot ?_ hp
        intro a b c ha hb hc
        have hmem : ∀ z, z ∈ x :: acc → z ∈ l := by
          intro z hz
          rcases List.mem_cons.1 hz with h1 | h1
          · exact h1 ▸ hrest x (List.mem_cons_self _ _)
          · exact hacc z h1
        exact htrans a b c (hmem a ha) (hmem b hb) (hmem c hc)
  exact key l [] (by simp) (fun a ha => ha) (List.Pairwise.nil)

theorem insSorted_of_le (cmp : α → α → Int) (x : α) (l : List α)
    (h : ∀ z ∈ l, cmp z x ≤ 0) : insSorted cmp x l = l ++ [x] := by
  induction l with
  | nil => rfl
  | cons y ys ih =>
    unfold insSorted
    rw [if_pos (h y (List.mem_cons_self _ _)), ih (fun z hz => h z (List.mem_cons_of_mem _ hz))]
    rfl

theorem jsSort_of_pairwise (cmp : α → α → Int) (l : List α)
    (hp : l.Pairwise (fun a b => cmp a b ≤ 0)) : jsSort cmp l = l := by
  have key : ∀ (rest acc : List α), (acc ++ rest).Pairwise (fun a b => cmp a b ≤ 0) →
      rest.foldl (fun a x => insSorted cmp x a) acc = acc ++ rest := by
    intro rest
    induction rest with
    | nil => intro acc _; simp
    | cons x xs ih =>
      intro acc hpar
      simp only [List.foldl_cons]
      have hle : ∀ z ∈ acc, cmp z x ≤ 0 := by
        intro z hz
        have := (List.pairwise_append.1 hpar).2.2
        exact this z hz x (List.mem_cons_self _ _)
      rw [insSorted_of_le cmp x acc hle]
      have : (acc ++ [x]) ++ xs = acc ++ x :: xs := by simp
      rw [ih (acc ++ [x]) (by rw [this]; exact hpar)]
      rw [this]
  have := key l [] (by simpa using hp)
  simpa [jsSort] using this

theorem jsSort_append (cmp : α → α → Int) (a b : List α) :
    jsSort cmp (a ++ b) = b.foldl (fun acc x => insSorted cmp x acc) (jsSort cmp a) := by
  unfold jsSort
  rw [List.foldl_append]

theorem jsSort_idem_append (cmp : α → α → Int) (l r : List α)
    (htot : ∀ a b, cmp a b ≤ 0 ∨ cmp b a ≤ 0)
    (htrans : ∀ a b c, a ∈ l → b ∈ l → c ∈ l →
      cmp a b ≤ 0 → cmp b c ≤ 0 → cmp a c ≤ 0) :
    jsSort cmp (jsSort cmp l ++ r) = jsSort cmp (l ++ r) := by
  rw [jsSort_append, jsSort_append]
  rw [jsSort_of_pairwise cmp (jsSort cmp l) (jsSort_pairwise cmp l htot htrans)]

/-! ### Annotation store -/

theorem annotCmp_total (a b : Annot) : annotCmp a b ≤ 0 ∨ annotCmp b a ≤ 0 := by
  unfold annotCmp jsNumCmp
  cases a.start with
  | none => cases b.start <;> simp
  | some x =>
    cases b.start with
    | none => simp
    | some y => simp only []; omega

theorem annotCmp_trans_some (a b c : Annot) (ha : a.start.isSome = true)
    (hb : b.start.isSome = true) (hc : c.start.isSome = true)
    (h1 : annotCmp a b ≤ 0) (h2 : annotCmp b c ≤ 0) : annotCmp a c ≤ 0 := by
  obtain ⟨x, hx⟩ := Option.isSome_iff_exists.1 ha
  obtain ⟨y, hy⟩ := Option.isSome_iff_exists.1 hb
  obtain ⟨z, hz⟩ := Option.isSome_iff_exists.1 hc
  unfold annotCmp jsNumCmp at h1 h2 ⊢
  rw [hx, hy] at h1
  rw [hy, hz] at h2
  rw [hx, hz]
  simp only [] at h1 h2 ⊢
  omega

theorem addAnnotAll_eq (adds : List Annot) :
    ∀ doc : Document, adds ≠ [] →
    (∀ a ∈ doc.annotations, a.start.isSome = true) →
    (∀ a ∈ adds, a.start.isSome = true) →
    (addAnnotAll doc adds).annotations =
      jsSort annotCmp (doc.annotations ++ adds.map (fun a => { a with id := doc.id })) ∧
    (addAnnotAll doc adds).id = doc.id := by
  induction adds with
  | nil => intro doc hne _ _; exact absurd rfl hne
  | cons a rest ih =>
    intro doc _ hds has
    by_cases hrest : rest = []
    · subst hrest
      exact ⟨rfl, rfl⟩
    · have hstep : addAnnotAll doc (a :: rest) = addAnnotAll (addAnnot doc a) rest := rfl
      have hid : (addAnnot doc a).id = doc.id := rfl
      have hsome : ∀ x ∈ (addAnnot doc a).annotations, x.start.isSome = true := by
        intro x hx
        have hmem : x ∈ doc.annotations ++ [{ a with id := doc.id }] :=
          (jsSort_perm annotCmp _).mem_iff.1 hx
        rcases List.mem_append.1 hmem with h1 | h1
        · exact hds x h1
        · rw [List.mem_singleton] at h1
          subst h1
          exact has a (List.mem_cons_self _ _)
      obtain ⟨ihann, ihid⟩ := ih (addAnnot doc a) hrest hsome
        (fun x hx => has x (List.mem_cons_of_mem _ hx))
      rw [hstep]
      refine ⟨?_, by rw [ihid, hid]⟩
      rw [ihann, hid]
      show jsSort annotCmp
          (jsSort annotCmp (doc.annotations ++ [{ a with id := doc.id }]) ++
            rest.map (fun a => { a with id := doc.id })) = _
      rw [jsSort_idem_append annotCmp _ _ (fun x y => annotCmp_total x y) ?htr]
      · rw [List.append_assoc, List.singleton_append, List.map_cons]
      · intro x y z hx hy hz
        have hh : ∀ w, w ∈ doc.annotations ++ [{ a with id := doc.id }] → w.start.isSome = true := by
          intro w hw
          rcases List.mem_append.1 hw with h1 | h1
          · exact hds w h1
          · rw [List.mem_singleton] at h1
            subst h1
            exact has a (List.mem_cons_self _ _)
        exact annotCmp_trans_some x y z (hh x hx) (hh y hy) (hh z hz)

/-- C5: after any non-empty sequence of `addAnnotation` calls (and no
intervening edits), the document's annotation list is exactly the stable
sort by `start` of the previous list followed by the added annotations in
insertion order (so ties keep relative insertion order), it is pairwise
sorted ascending by `start`, and every added annotation is present with
its `id` forced to the owning document's id. -/
theorem claim_C5 (doc : Document) (adds : List Annot) (hne : adds ≠ [])
    (hds : ∀ a ∈ doc.annotations, a.start.isSome = true)
    (has : ∀ a ∈ adds, a.start.isSome = true) :
    (addAnnotAll doc adds).annotations =
      jsSort annotCmp (doc.annotations ++ adds.map (fun a => { a with id := doc.id })) ∧
    (addAnnotAll doc adds).annotations.Pairwise (fun a b => annotCmp a b ≤ 0) ∧
    ∀ a ∈ adds, ({ a with id := doc.id } : Annot) ∈ (addAnnotAll doc adds).annotations := by
  obtain ⟨heq, _⟩ := addAnnotAll_eq adds doc hne hds has
  have hall : ∀ x ∈ doc.annotations ++ adds.map (fun a => { a with id := doc.id }),
      x.start.isSome = true := by
    intro x hx
    rcases List.mem_append.1 hx with h1 | h1
    · exact hds x h1
    · obtain ⟨w, hw, rfl⟩ := List.mem_map.1 h1
      exact has w hw
  refine ⟨heq, ?_, ?_⟩
  · rw [heq]
    exact jsSort_pairwise annotCmp _ (fun x y => annotCmp_total x y)
      (fun x y z hx hy hz => annotCmp_trans_some x y z (hall x hx) (hall y hy) (hall z hz))
  · intro a ha
    rw [heq, (jsSort_perm annotCmp _).mem_iff]
    exact List.mem_append_right _ (List.mem_map.2 ⟨a, ha, rfl⟩)

/-- Witness for C5: adding two annotations (starts 5 then 2) to a
document with one annotation (start 4) produces the stable sort of the
three. -/
theorem claim_C5_witness :
    (addAnnotAll ⟨"d".toList, "t".toList, "s".toList,
        [⟨"d".toList, some 4, some 5, "x".toList, "X".toList, none⟩]⟩
      [⟨"p".toList, some 5, some 6, "y".toList, "Y".toList, none⟩,
       ⟨"q".toList, some 2, some 3, "z".toList, "Z".toList, none⟩]).annotations =
      jsSort annotCmp
        (([⟨"d".toList, some 4, some 5, "x".toList, "X".toList, none⟩] : List Annot) ++
          ([⟨"p".toList, some 5, some 6, "y".toList, "Y".toList, none⟩,
            ⟨"q".toList, some 2, some 3, "z".toList, "Z".toList, none⟩] : List Annot).map
            (fun a => { a with id := "d".toList })) :=
  (claim_C5 ⟨"d".toList, "t".toList, "s".toList,
      [⟨"d".toList, some 4, some 5, "x".toList, "X".toList, none⟩]⟩
    [⟨"p".toList, some 5, some 6, "y".toList, "Y".toList, none⟩,
     ⟨"q".toList, some 2, some 3, "z".toList, "Z".toList, none⟩]
    (by decide) (by decide) (by decide)).1

/-! ### Overlap and scan lemmas for the segmentation engine -/

theorem jsGt_eq_jsLt (a b : JSNum) : jsGt a b = jsLt b a := by
  cases a <;> cases b <;> rfl

theorem rangesOverlap_symm (s1 e1 s2 e2 : JSNum) :
    rangesOverlap s1 e1 s2 e2 = rangesOverlap s2 e2 s1 e1 := by
  unfold rangesOverlap
  rw [jsGt_eq_jsLt, jsGt_eq_jsLt]
  exact Bool.and_comm _ _

theorem rangesOverlap_some_false {s1 e1 s2 e2 : Int} :
    rangesOverlap (some s1) (some e1) (some s2) (some e2) = false ↔ e2 ≤ s1 ∨ e1 ≤ s2 := by
  unfold rangesOverlap jsLt jsGt
  simp only [Bool.and_eq_false_iff, decide_eq_false_iff_not, not_lt]

theorem ciStartsWith_length {p l : Str} (h : ciStartsWith p l = true) : p.length ≤ l.length := by
  induction p generalizing l with
  | nil => simp
  | cons c cs ih =>
    cases l with
    | nil => exact absurd h (by simp [ciStartsWith])
    | cons d ds =>
      simp only [ciStartsWith, Bool.and_eq_true] at h
      simpa [List.length_cons] using ih h.2

theorem ciFindFirst_bound {p : Str} : ∀ {l : Str} {j : Nat},
    ciFindFirst p l = some j → j + p.length ≤ l.length := by
  intro l
  induction l with
  | nil =>
    intro j h
    unfold ciFindFirst at h
    by_cases hs : ciStartsWith p [] = true
    · rw [if_pos hs] at h
      cases h
      simpa using ciStartsWith_length hs
    · rw [if_neg hs] at h
      cases h
  | cons c cs ih =>
    intro j h
    unfold ciFindFirst at h
    by_cases hs : ciStartsWith p (c :: cs) = true
    · rw [if_pos hs] at h
      cases h
      simpa using ciStartsWith_length hs
    · rw [if_neg hs] at h
      rw [Option.map_eq_some'] at h
      obtain ⟨j0, hj0, rfl⟩ := h
      have := ih hj0
      simp [List.length_cons]
      omega

theorem ciScanAux_bounds (needle : Str) :
    ∀ (fuel : Nat) (hay : Str) (offset : Nat), ∀ m ∈ ciScanAux needle fuel hay offset,
      offset ≤ m.1 ∧ m.1 + m.2 ≤ offset + hay.length ∧ m.2 = needle.length := by
  intro fuel
  induction fuel with
  | zero => intro hay offset m hm; exact absurd hm (by simp [ciScanAux])
  | succ fuel ih =>
    intro hay offset m hm
    unfold ciScanAux at hm
    cases hfind : ciFindFirst needle hay with
    | none => rw [hfind] at hm; exact absurd hm (by simp)
    | some j =>
      rw [hfind] at hm
      have hjb := ciFindFirst_bound hfind
      rcases List.mem_cons.1 hm with rfl | hm2
      · refine ⟨by omega, by simpa using by omega, rfl⟩
      · have := ih (hay.drop (j + needle.length)) (offset + j + needle.length) m hm2
        rw [List.length_drop] at this
        exact ⟨by omega, by omega, this.2.2⟩

theorem ciScan_bounds (needle text : Str) :
    ∀ m ∈ ciScan needle text, m.1 + m.2 ≤ text.length ∧ m.2 = needle.length := by
  intro m hm
  have := ciScanAux_bounds needle (text.length + 1) text 0 m hm
  exact ⟨by omega, this.2.2⟩

theorem mapSet_keys_sub (m : List (Str × Str)) (k v : Str) :
    ∀ q ∈ mapSet m k v, q.1 = k ∨ ∃ p ∈ m, q.1 = p.1 := by
  intro q hq
  unfold mapSet at hq
  by_cases hk : m.any (fun p => p.1 = k) = true
  · rw [if_pos hk, List.mem_map] at hq
    obtain ⟨p, hp, rfl⟩ := hq
    by_cases hpk : p.1 = k
    · rw [if_pos hpk]
      exact Or.inl rfl
    · rw [if_neg hpk]
      exact Or.inr ⟨p, hp, rfl⟩
  · rw [if_neg hk, List.mem_append] at hq
    rcases hq with h | h
    · exact Or.inr ⟨q, h, rfl⟩
    · rw [List.mem_singleton] at h
      subst h
      exact Or.inl rfl

theorem createUniqueTextMap_keys_len (annos : List Annot) :
    ∀ p ∈ createUniqueTextMap annos, 1 ≤ p.1.length ∧ p.1.length ≤ 50 := by
  have key : ∀ (l : List Annot) (m : List (Str × Str)),
      (∀ p ∈ m, 1 ≤ p.1.length ∧ p.1.length ≤ 50) →
      ∀ p ∈ l.foldl
        (fun m anno =>
          if uniqueTextCond anno.text then mapSet m (anno.text.map Char.toLower) anno.type
          else m) m, 1 ≤ p.1.length ∧ p.1.length ≤ 50 := by
    intro l
    induction l with
    | nil => intro m hm; exact hm
    | cons a as ih =>
      intro m hm
      simp only [List.foldl_cons]
      by_cases hc : uniqueTextCond a.text = true
      · rw [if_pos hc]
        refine ih _ ?_
        intro q hq
        rcases mapSet_keys_sub m (a.text.map Char.toLower) a.type q hq with h | ⟨p, hp, hqp⟩
        · rw [h, List.length_map]
          have := (uniqueTextCond_iff a.text).1 hc
          exact ⟨this.1, this.2.1⟩
        · rw [hqp]
          exact hm p hp
      · rw [if_neg hc]
        exact ih m hm
  intro p hp
  exact key annos [] (by simp) p hp

/-! ### Acceptance invariants of the potential and regex passes -/

theorem noOv_symm {p q : Pos} (h : noOv p q) : noOv q p := by
  unfold noOv at h ⊢
  rw [rangesOverlap_symm]
  exact h

theorem potAccept_invariant (n : Nat) (existing : List Pos) (cand : Pos) (acc : List Pos)
    (hcand : posOK n cand)
    (h1 : ∀ q ∈ acc, posOK n q) (h2 : ∀ q ∈ acc, ∀ p ∈ existing, noOv q p)
    (h3 : acc.Pairwise noOv) :
    (∀ q ∈ potAccept existing acc cand, posOK n q) ∧
    (∀ q ∈ potAccept existing acc cand, ∀ p ∈ existing, noOv q p) ∧
    (potAccept existing acc cand).Pairwise noOv := by
  unfold potAccept
  by_cases hov : (existing ++ acc).any
      (fun pos => rangesOverlap cand.start cand.stop pos.start pos.stop) = true
  · rw [if_pos hov]
    exact ⟨h1, h2, h3⟩
  · rw [if_neg hov]
    rw [Bool.not_eq_true] at hov
    have hno : ∀ p ∈ existing ++ acc,
        rangesOverlap cand.start cand.stop p.start p.stop = false := by
      intro p hp
      exact Bool.not_eq_true _ ▸ (List.any_eq_false.1 hov p hp)
    refine ⟨?_, ?_, ?_⟩
    · intro q hq
      rcases List.mem_append.1 hq with h | h
      · exact h1 q h
      · rw [List.mem_singleton] at h
        exact h ▸ hcand
    · intro q hq p hp
      rcases List.mem_append.1 hq with h | h
      · exact h2 q h p hp
      · rw [List.mem_singleton] at h
        subst h
        exact hno p (List.mem_append_left _ hp)
    · rw [List.pairwise_append]
      refine ⟨h3, List.pairwise_singleton _ _, ?_⟩
      intro q hq c hc
      rw [List.mem_singleton] at hc
      subst hc
      exact noOv_symm (hno q (List.mem_append_right _ hq))

theorem potFold_invariant {β : Type} (n : Nat) (existing : List Pos) (g : β → Pos)
    (ms : List β) (hg : ∀ m ∈ ms, posOK n (g m)) :
    ∀ acc : List Pos,
    (∀ q ∈ acc, posOK n q) → (∀ q ∈ acc, ∀ p ∈ existing, noOv q p) → acc.Pairwise noOv →
    (∀ q ∈ ms.foldl (fun acc2 m => potAccept existing acc2 (g m)) acc, posOK n q) ∧
    (∀ q ∈ ms.foldl (fun acc2 m => potAccept existing acc2 (g m)) acc, ∀ p ∈ existing, noOv q p) ∧
    (ms.foldl (fun acc2 m => potAccept existing acc2 (g m)) acc).Pairwise noOv := by
  induction ms with
  | nil => intro acc h1 h2 h3; exact ⟨h1, h2, h3⟩
  | cons m rest ih =>
    intro acc h1 h2 h3
    simp only [List.foldl_cons]
    obtain ⟨g1, g2, g3⟩ := potAccept_invariant n existing (g m) acc
      (hg m (List.mem_cons_self _ _)) h1 h2 h3
    exact ih (fun x hx => hg x (List.mem_cons_of_mem _ hx)) _ g1 g2 g3

theorem createPotentialMatches_invariant (text : Str) (uniqueTexts : List (Str × Str))
    (existing : List Pos) (hkeys : ∀ p ∈ uniqueTexts, 1 ≤ p.1.length) :
    (∀ q ∈ createPotentialMatches text uniqueTexts existing, posOK text.length q) ∧
    (∀ q ∈ createPotentialMatches text uniqueTexts existing, ∀ p ∈ existing, noOv q p) ∧
    (createPotentialMatches text uniqueTexts existing).Pairwise noOv := by
  have hsorted : ∀ kv ∈ jsSort entryCmp uniqueTexts, 1 ≤ kv.1.length := by
    intro kv hkv
    exact hkeys kv ((jsSort_perm entryCmp uniqueTexts).mem_iff.1 hkv)
  unfold createPotentialMatches
  have key : ∀ (entries : List (Str × Str)), (∀ kv ∈ entries, 1 ≤ kv.1.length) →
      ∀ acc : List Pos,
      (∀ q ∈ acc, posOK text.length q) → (∀ q ∈ acc, ∀ p ∈ existing, noOv q p) →
      acc.Pairwise noOv →
      (∀ q ∈ entries.foldl
          (fun acc kv =>
            (ciScan kv.1 text).foldl
              (fun acc2 m => potAccept existing acc2 (mkPotentialPos m kv.2)) acc) acc,
        posOK text.length q) ∧
      (∀ q ∈ entries.foldl
          (fun acc kv =>
            (ciScan kv.1 text).foldl
              (fun acc2 m => potAccept existing acc2 (mkPotentialPos m kv.2)) acc) acc,
        ∀ p ∈ existing, noOv q p) ∧
      (entries.foldl
          (fun acc kv =>
            (ciScan kv.1 text).foldl
              (fun acc2 m => potAccept existing acc2 (mkPotentialPos m kv.2)) acc) acc).Pairwise noOv := by
    intro entries
    induction entries with
    | nil => intro _ acc h1 h2 h3; exact ⟨h1, h2, h3⟩
    | cons kv rest ih =>
      intro hlen acc h1 h2 h3
      simp only [List.foldl_cons]
      have hg : ∀ m ∈ ciScan kv.1 text, posOK text.length (mkPotentialPos m kv.2) := by
        intro m hm
        obtain ⟨hb, hl⟩ := ciScan_bounds kv.1 text m hm
        refine ⟨(m.1 : Int), ((m.1 + m.2 : Nat) : Int), rfl, rfl, by positivity, ?_, ?_⟩
        · have h1m : 1 ≤ m.2 := hl ▸ hlen kv (List.mem_cons_self _ _)
          push_cast
          omega
        · exact_mod_cast hb
      obtain ⟨g1, g2, g3⟩ := potFold_invariant text.length existing
        (fun m => mkPotentialPos m kv.2) (ciScan kv.1 text) hg acc h1 h2 h3
      exact ih (fun x hx => hlen x (List.mem_cons_of_mem _ hx)) _ g1 g2 g3
  exact key (jsSort entryCmp uniqueTexts) hsorted [] (by simp) (by simp) List.Pairwise.nil

theorem createRegexMatches_props (engine : RegexEngine) (text pattern : Str)
    (existing : List Pos)
    (heng : ∀ ms, engine pattern text = some ms →
      (∀ m ∈ ms, 1 ≤ m.2 ∧ m.1 + m.2 ≤ text.length) ∧
      ms.Pairwise (fun m1 m2 => m1.1 + m1.2 ≤ m2.1)) :
    (∀ q ∈ createRegexMatches engine text pattern existing, posOK text.length q) ∧
    (∀ q ∈ createRegexMatches engine text pattern existing, ∀ p ∈ existing, noOv q p) ∧
    (createRegexMatches engine text pattern existing).Pairwise noOv := by
  unfold createRegexMatches
  by_cases hguard : (pattern.isEmpty || (jsTrim pattern).isEmpty) = true
  · rw [if_pos hguard]
    exact ⟨by simp, by simp, List.Pairwise.nil⟩
  · rw [if_neg hguard]
    cases hcomp : engine pattern text with
    | none => exact ⟨by simp, by simp, List.Pairwise.nil⟩
    | some ms =>
      obtain ⟨hbounds, hdisj⟩ := heng ms hcomp
      refine ⟨?_, ?_, ?_⟩
      · intro q hq
        have hq2 := List.mem_of_mem_filter hq
        obtain ⟨m, hm, rfl⟩ := List.mem_map.1 hq2
        obtain ⟨h1m, h2m⟩ := hbounds m hm
        refine ⟨(m.1 : Int), ((m.1 + m.2 : Nat) : Int), rfl, rfl, by positivity, ?_, ?_⟩
        · push_cast
          omega
        · exact_mod_cast h2m
      · intro q hq p hp
        have hpred := List.of_mem_filter hq
        simp only [Bool.not_eq_true'] at hpred
        unfold noOv
        have := List.any_eq_false.1 hpred p hp
        simpa using this
      · refine List.Pairwise.sublist (List.filter_sublist _) ?_
        rw [List.pairwise_map]
        refine hdisj.imp ?_
        intro m1 m2 h
        unfold noOv mkRegexPos
        rw [rangesOverlap_some_false]
        right
        exact_mod_cast h

theorem annotSpanOK_posOK {n : Nat} {a : Annot} (h : annotSpanOK n a = true) :
    posOK n ⟨a.start, a.stop, PosKind.ann, some a.type⟩ := by
  unfold annotSpanOK at h
  cases hs : a.start with
  | none => rw [hs] at h; exact absurd h (by simp)
  | some s =>
    cases he : a.stop with
    | none => rw [hs, he] at h; exact absurd h (by simp)
    | some e =>
      rw [hs, he] at h
      simp only [Bool.and_eq_true, decide_eq_true_eq] at h
      exact ⟨s, e, by simp [hs], by simp [he], h.1.1, h.1.2, h.2⟩

theorem acceptedPositions_props (engine : RegexEngine) (text : Str) (annos : List Annot)
    (pattern : Str)
    (H1 : ∀ a ∈ annos, annotSpanOK text.length a = true)
    (H2 : annos.Pairwise (fun a b => rangesOverlap a.start a.stop b.start b.stop = false))
    (heng : ∀ ms, engine pattern text = some ms →
      (∀ m ∈ ms, 1 ≤ m.2 ∧ m.1 + m.2 ≤ text.length) ∧
      ms.Pairwise (fun m1 m2 => m1.1 + m1.2 ≤ m2.1)) :
    (∀ q ∈ acceptedPositions engine text annos pattern, posOK text.length q) ∧
    (acceptedPositions engine text annos pattern).Pairwise noOv := by
  have hA1 : ∀ q ∈ createAnnotationPositions annos, posOK text.length q := by
    intro q hq
    obtain ⟨a, ha, rfl⟩ := List.mem_map.1 hq
    exact annotSpanOK_posOK (H1 a ha)
  have hA2 : (createAnnotationPositions annos).Pairwise noOv := by
    unfold createAnnotationPositions
    rw [List.pairwise_map]
    exact H2.imp (fun h => h)
  obtain ⟨hP1, hP2, hP3⟩ := createPotentialMatches_invariant text (createUniqueTextMap annos)
    (createAnnotationPositions annos)
    (fun p hp => (createUniqueTextMap_keys_len annos p hp).1)
  obtain ⟨hR1, hR2, hR3⟩ := createRegexMatches_props engine text pattern
    (createAnnotationPositions annos ++
      createPotentialMatches text (createUniqueTextMap annos) (createAnnotationPositions annos))
    heng
  have hAP : (createAnnotationPositions annos ++
      createPotentialMatches text (createUniqueTextMap annos)
        (createAnnotationPositions annos)).Pairwise noOv := by
    rw [List.pairwise_append]
    exact ⟨hA2, hP3, fun a ha p hp => noOv_symm (hP2 p hp a ha)⟩
  constructor
  · intro q hq
    simp only [acceptedPositions] at hq
    rcases List.mem_append.1 hq with h | h
    · rcases List.mem_append.1 h with h2 | h2
      · exact hA1 q h2
      · exact hP1 q h2
    · exact hR1 q h
  · show ((createAnnotationPositions annos ++
        createPotentialMatches text (createUniqueTextMap annos)
          (createAnnotationPositions annos)) ++
        createRegexMatches engine text pattern _).Pairwise noOv
    rw [List.pairwise_append]
    exact ⟨hAP, hR3, fun q hq r hr => noOv_symm (hR2 r hr q hq)⟩

/-! ### Sorted walk lemmas -/

theorem posCmp_total (a b : Pos) : posCmp a b ≤ 0 ∨ posCmp b a ≤ 0 := by
  unfold posCmp jsNumCmp
  cases a.start with
  | none => cases b.start <;> simp
  | some x =>
    cases b.start with
    | none => simp
    | some y => simp only []; omega

theorem posCmp_trans_some (a b c : Pos) (ha : a.start.isSome = true)
    (hb : b.start.isSome = true) (hc : c.start.isSome = true)
    (h1 : posCmp a b ≤ 0) (h2 : posCmp b c ≤ 0) : posCmp a c ≤ 0 := by
  obtain ⟨x, hx⟩ := Option.isSome_iff_exists.1 ha
  obtain ⟨y, hy⟩ := Option.isSome_iff_exists.1 hb
  obtain ⟨z, hz⟩ := Option.isSome_iff_exists.1 hc
  unfold posCmp jsNumCmp at h1 h2 ⊢
  rw [hx, hy] at h1
  rw [hy, hz] at h2
  rw [hx, hz]
  simp only [] at h1 h2 ⊢
  omega

theorem walkOK_of_sorted (n : Nat) : ∀ l : List Pos,
    (∀ q ∈ l, posOK n q) → l.Pairwise noOv →
    l.Pairwise (fun a b => posCmp a b ≤ 0) →
    ∀ le : Int, (∀ q ∈ l, ∀ s : Int, q.start = some s → le ≤ s) →
    WalkOK n le l := by
  intro l
  induction l with
  | nil => intro _ _ _ le _; exact trivial
  | cons p ps ih =>
    intro hOK hNoOv hSorted le hle
    obtain ⟨s, e, hs, he, h0, hse, hen⟩ := hOK p (List.mem_cons_self _ _)
    rw [List.pairwise_cons] at hNoOv hSorted
    refine ⟨s, e, hs, he, hle p (List.mem_cons_self _ _) s hs, hse, hen, ?_⟩
    refine ih (fun q hq => hOK q (List.mem_cons_of_mem _ hq)) hNoOv.2 hSorted.2 e ?_
    intro q hq sq hsq
    obtain ⟨sq', eq', hsq', heq', hq0, hqse, hqen⟩ := hOK q (List.mem_cons_of_mem _ hq)
    rw [hsq] at hsq'
    cases hsq'
    have hcmp := hSorted.1 q hq
    unfold posCmp jsNumCmp at hcmp
    rw [hs, hsq] at hcmp
    simp only [] at hcmp
    have hno := hNoOv.1 q hq
    unfold noOv at hno
    rw [hs, he, hsq, heq'] at hno
    rcases rangesOverlap_some_false.1 hno with h | h
    · omega
    · exact h

theorem jsSubstring_eval {text : Str} {a b : Int} (_h0 : 0 ≤ a) (hab : a ≤ b)
    (hbn : b ≤ (text.length : Int)) :
    jsSubstring text (some a) (some b) = (text.drop a.toNat).take (b.toNat - a.toNat) := by
  simp only [jsSubstring, jsIdx]
  rw [show min (min a.toNat text.length) (min b.toNat text.length) = a.toNat from by omega,
    show max (min a.toNat text.length) (min b.toNat text.length) = b.toNat from by omega]

theorem ctsGo_concat (text : Str) : ∀ (ps : List Pos) (le : Int), 0 ≤ le →
    le ≤ (text.length : Int) → WalkOK text.length le ps →
    ((ctsGo text (some le) ps).map (fun s => s.text)).flatten = text.drop le.toNat := by
  intro ps
  induction ps with
  | nil =>
    intro le h0 hn _
    unfold ctsGo
    by_cases hlt : le < (text.length : Int)
    · have hg : jsLt (some le) (some (text.length : Int)) = true := by
        simp only [jsLt, decide_eq_true_eq]
        exact hlt
      rw [if_pos hg]
      show jsSubstringFrom text (some le) ++ [] = _
      unfold jsSubstringFrom
      rw [jsSubstring_eval h0 (by omega) (by omega)]
      rw [List.append_nil]
      apply List.take_of_length_le
      rw [List.length_drop]
      omega
    · have hg : ¬ jsLt (some le) (some (text.length : Int)) = true := by
        simp only [jsLt, decide_eq_true_eq]
        exact hlt
      rw [if_neg hg]
      show ([] : Str) = _
      rw [List.drop_eq_nil_of_le (by omega)]
  | cons p ps ih =>
    intro le h0 hn hwalk
    obtain ⟨s, e, hs, he, hles, hse, hen, hrest⟩ := hwalk
    unfold ctsGo
    rw [hs, he]
    have hrec := ih e (by omega) hen hrest
    have step1 : (text.drop s.toNat).take (e.toNat - s.toNat) ++ text.drop e.toNat =
        text.drop s.toNat := by
      have h := List.drop_take_append_drop text s.toNat (e.toNat - s.toNat)
      rwa [show s.toNat + (e.toNat - s.toNat) = e.toNat from by omega] at h
    by_cases hlt : le < s
    · have hg : jsGt (some s) (some le) = true := by
        simp only [jsGt, decide_eq_true_eq]
        exact hlt
      rw [if_pos hg]
      simp only [List.map_append, List.map_cons, List.map_nil, List.flatten_append,
        List.flatten_cons, List.flatten_nil, List.append_nil]
      rw [hrec, jsSubstring_eval h0 (by omega) (by omega),
        jsSubstring_eval (by omega : (0:Int) ≤ s) (by omega) hen]
      rw [step1]
      have h := List.drop_take_append_drop text le.toNat (s.toNat - le.toNat)
      rwa [show le.toNat + (s.toNat - le.toNat) = s.toNat from by omega] at h
    · have hg : ¬ jsGt (some s) (some le) = true := by
        simp only [jsGt, decide_eq_true_eq]
        exact hlt
      rw [if_neg hg]
      have hsle : s = le := le_antisymm (not_lt.1 hlt) hles
      subst hsle
      simp only [List.nil_append, List.map_cons, List.flatten_cons]
      rw [hrec, jsSubstring_eval h0 (by omega) hen]
      exact step1

theorem uswpGo_texts (annos : List Annot) (text : Str) : ∀ (segs : List Segment) (cp : Nat),
    (uswpGo annos text cp segs).map (fun s => s.text) = segs.map (fun s => s.text) := by
  intro segs
  induction segs with
  | nil => intro cp; rfl
  | cons seg rest ih =>
    intro cp
    unfold uswpGo
    simp only [List.map_cons, ih]
    congr 1
    by_cases hseg : seg.highlighted = Highlight.ann
    · rw [if_pos hseg]
      cases findNearbyAnnot annos text seg.text cp <;> rfl
    · rw [if_neg hseg]

/-- Counterexample to C2 as stated: with the two overlapping explicit
annotations [0,2) and [1,3) on "abcd" (and no pattern), the segment texts
concatenate to "abbcd", not "abcd", so the claimed invariant fails for
arbitrary annotation lists. -/
theorem claim_C2_counterexample :
    ¬ segConcat (processTextSegments (fun _ _ => none) "abcd".toList
        [⟨"d".toList, some 0, some 2, "ab".toList, "T".toList, none⟩,
         ⟨"d".toList, some 1, some 3, "bc".toList, "T".toList, none⟩] []) =
      "abcd".toList := by
  decide

/-- C2 (amended): for every combinedText, pattern and regex engine
(returning in-bounds, non-empty, mutually disjoint matches when it
compiles the pattern), if the explicit annotations have integer offsets
with `0 <= start < end <= length` and are pairwise non-overlapping, then
all highlighted spans the three passes accept are pairwise
non-overlapping, and the concatenation of all output segments' text
fields reproduces combinedText exactly. -/
theorem claim_C2 (engine : RegexEngine) (combinedText : Str) (annotations : List Annot)
    (pattern : Str)
    (H1 : ∀ a ∈ annotations, annotSpanOK combinedText.length a = true)
    (H2 : annotations.Pairwise (fun a b => rangesOverlap a.start a.stop b.start b.stop = false))
    (H3 : ∀ ms, engine pattern combinedText = some ms →
      (∀ m ∈ ms, 1 ≤ m.2 ∧ m.1 + m.2 ≤ combinedText.length) ∧
      ms.Pairwise (fun m1 m2 => m1.1 + m1.2 ≤ m2.1)) :
    (acceptedPositions engine combinedText annotations pattern).Pairwise noOv ∧
    segConcat (processTextSegments engine combinedText annotations pattern) = combinedText := by
  obtain ⟨hOK, hPW⟩ := acceptedPositions_props engine combinedText annotations pattern H1 H2 H3
  refine ⟨hPW, ?_⟩
  by_cases hempty : combinedText.isEmpty = true
  · unfold processTextSegments
    rw [if_pos hempty]
    exact (List.isEmpty_iff.1 hempty).symm
  · unfold processTextSegments
    rw [if_neg hempty]
    have hperm := jsSort_perm posCmp (acceptedPositions engine combinedText annotations pattern)
    have hOK2 : ∀ q ∈ jsSort posCmp (acceptedPositions engine combinedText annotations pattern),
        posOK combinedText.length q := fun q hq => hOK q (hperm.mem_iff.1 hq)
    have hsome : ∀ q ∈ jsSort posCmp (acceptedPositions engine combinedText annotations pattern),
        q.start.isSome = true := by
      intro q hq
      obtain ⟨s, _, hs, _⟩ := hOK2 q hq
      rw [hs]
      rfl
    have hPW2 : (jsSort posCmp
        (acceptedPositions engine combinedText annotations pattern)).Pairwise noOv :=
      (hperm.pairwise_iff (fun h => noOv_symm h)).2 hPW
    have hsorted : (jsSort posCmp
        (acceptedPositions engine combinedText annotations pattern)).Pairwise
          (fun a b => posCmp a b ≤ 0) := by
      refine jsSort_pairwise posCmp _ (fun a b => posCmp_total a b) ?_
      intro a b c ha hb hc
      have hmem : ∀ z, z ∈ acceptedPositions engine combinedText annotations pattern →
          z.start.isSome = true := by
        intro z hz
        obtain ⟨s, _, hs, _⟩ := hOK z hz
        rw [hs]
        rfl
      exact posCmp_trans_some a b c (hmem a ha) (hmem b hb) (hmem c hc)
    have hwalk : WalkOK combinedText.length 0
        (jsSort posCmp (acceptedPositions engine combinedText annotations pattern)) := by
      refine walkOK_of_sorted combinedText.length _ hOK2 hPW2 hsorted 0 ?_
      intro q hq s hs
      obtain ⟨s', _, hs', _, h0, _⟩ := hOK2 q hq
      rw [hs] at hs'
      cases hs'
      exact h0
    have hconcat := ctsGo_concat combinedText
      (jsSort posCmp (acceptedPositions engine combinedText annotations pattern)) 0
      (le_refl 0) (by positivity) hwalk
    show segConcat (updateSegmentsWithPositions
        (createTextSegments combinedText
          (jsSort posCmp (acceptedPositions engine combinedText annotations pattern)))
        annotations combinedText) = combinedText
    unfold segConcat updateSegmentsWithPositions
    rw [uswpGo_texts]
    show ((ctsGo combinedText (some 0)
      (jsSort posCmp (acceptedPositions engine combinedText annotations pattern))).map
        (fun s => s.text)).flatten = combinedText
    rw [hconcat]
    rfl

/-- Witness for the amended C2: one annotation [0,1) on "ab" with an
empty pattern; the accepted spans are pairwise non-overlapping and the
segment texts concatenate back to "ab". -/
theorem claim_C2_witness :
    (acceptedPositions (fun _ _ => none) "ab".toList
        [⟨"d".toList, some 0, some 1, "a".toList, "T".toList, none⟩] []).Pairwise noOv ∧
    segConcat (processTextSegments (fun _ _ => none) "ab".toList
        [⟨"d".toList, some 0, some 1, "a".toList, "T".toList, none⟩] []) = "ab".toList :=
  claim_C2 (fun _ _ => none) "ab".toList
    [⟨"d".toList, some 0, some 1, "a".toList, "T".toList, none⟩] []
    (by decide) (by decide) (fun ms h => Option.noConfusion h)

/-! ### Integer rendering and parsing round trip -/

theorem isDigitChar_digitChar {d : Nat} (h : d < 10) : isDigitChar (digitChar d) = true := by
  interval_cases d <;> decide

theorem digitVal_digitChar {d : Nat} (h : d < 10) : digitVal (digitChar d) = d := by
  interval_cases d <;> decide

theorem natToStr_ne_nil (n : Nat) : natToStr n ≠ [] := by
  rw [natToStr]
  by_cases h : n < 10
  · simp [h]
  · simp [h]

theorem natToStr_all_digits (n : Nat) : ∀ c ∈ natToStr n, isDigitChar c = true := by
  induction n using Nat.strong_induction_on with
  | _ n ih =>
    rw [natToStr]
    by_cases h : n < 10
    · rw [dif_pos h]
      intro c hc
      rw [List.mem_singleton] at hc
      subst hc
      exact isDigitChar_digitChar h
    · rw [dif_neg h]
      intro c hc
      rcases List.mem_append.1 hc with h1 | h1
      · exact ih (n / 10) (Nat.div_lt_self (by omega) (by omega)) c h1
      · rw [List.mem_singleton] at h1
        subst h1
        exact isDigitChar_digitChar (Nat.mod_lt n (by omega))

theorem digitsVal_natToStr (n : Nat) : digitsVal 10 digitVal (natToStr n) = n := by
  induction n using Nat.strong_induction_on with
  | _ n ih =>
    rw [natToStr]
    by_cases h : n < 10
    · rw [dif_pos h]
      unfold digitsVal
      simp [digitVal_digitChar h]
    · rw [dif_neg h]
      unfold digitsVal
      rw [List.foldl_append]
      have hrec := ih (n / 10) (Nat.div_lt_self (by omega) (by omega))
      unfold digitsVal at hrec
      rw [hrec]
      simp only [List.foldl_cons, List.foldl_nil]
      rw [digitVal_digitChar (Nat.mod_lt n (by omega))]
      omega

theorem isDigitChar_ne {c : Char} (h : isDigitChar c = true) :
    c ≠ '\n' ∧ c ≠ '\t' ∧ c ≠ '|' ∧ c ≠ '-' ∧ c ≠ '+' ∧ c ≠ 'x' ∧ c ≠ 'X' ∧
      jsIsWhiteChar c = false := by
  unfold isDigitChar at h
  simp only [Bool.and_eq_true, decide_eq_true_eq] at h
  obtain ⟨h1, h2⟩ := h
  have hnl : c ≠ '\n' := by rintro rfl; exact absurd h1 (by decide)
  have hht : c ≠ '\t' := by rintro rfl; exact absurd h1 (by decide)
  have hpi : c ≠ '|' := by rintro rfl; exact absurd h2 (by decide)
  have hmi : c ≠ '-' := by rintro rfl; exact absurd h1 (by decide)
  have hpl : c ≠ '+' := by rintro rfl; exact absurd h1 (by decide)
  have hx : c ≠ 'x' := by rintro rfl; exact absurd h2 (by decide)
  have hX : c ≠ 'X' := by rintro rfl; exact absurd h2 (by decide)
  have hsp : c ≠ ' ' := by rintro rfl; exact absurd h1 (by decide)
  have hcr : c ≠ '\r' := by rintro rfl; exact absurd h1 (by decide)
  have hvt : c ≠ '\x0b' := by rintro rfl; exact absurd h1 (by decide)
  have hff : c ≠ '\x0c' := by rintro rfl; exact absurd h1 (by decide)
  refine ⟨hnl, hht, hpi, hmi, hpl, hx, hX, ?_⟩
  simp [jsIsWhiteChar, hsp, hht, hnl, hcr, hvt, hff]

theorem jsParseIntCore_natToStr (n : Nat) : jsParseIntCore (natToStr n) = some n := by
  unfold jsParseIntCore
  have hx : startsWithStr ('0' :: 'x' :: []) (natToStr n) = false := by
    by_contra hc
    rw [Bool.not_eq_false, startsWithStr_iff] at hc
    obtain ⟨t, ht⟩ := hc
    have : 'x' ∈ natToStr n := by rw [← ht]; simp
    exact absurd (natToStr_all_digits n 'x' this) (by decide)
  have hX : startsWithStr ('0' :: 'X' :: []) (natToStr n) = false := by
    by_contra hc
    rw [Bool.not_eq_false, startsWithStr_iff] at hc
    obtain ⟨t, ht⟩ := hc
    have : 'X' ∈ natToStr n := by rw [← ht]; simp
    exact absurd (natToStr_all_digits n 'X' this) (by decide)
  rw [hx, hX]
  simp only [Bool.false_eq_true, if_false]
  unfold parseRun
  rw [List.takeWhile_eq_self_iff.2 (natToStr_all_digits n)]
  rw [if_neg (by simp [List.isEmpty_iff, natToStr_ne_nil n])]
  rw [digitsVal_natToStr]

theorem jsTrimStart_digits (l : Str) (h : ∀ c ∈ l, isDigitChar c = true) :
    jsTrimStart l = l := by
  unfold jsTrimStart
  cases l with
  | nil => rfl
  | cons c cs =>
    rw [List.dropWhile_cons]
    rw [(isDigitChar_ne (h c (List.mem_cons_self _ _))).2.2.2.2.2.2.2]
    simp

theorem jsParseInt_intToStr (k : Int) : jsParseInt (intToStr k) = some k := by
  unfold intToStr
  by_cases hk : k < 0
  · rw [if_pos hk]
    unfold jsParseInt
    have htrim : jsTrimStart ('-' :: natToStr (-k).toNat) = '-' :: natToStr (-k).toNat := by
      unfold jsTrimStart
      rw [List.dropWhile_cons]
      simp [jsIsWhiteChar]
    rw [htrim]
    rw [if_pos (by simp [startsWithStr])]
    simp only [List.drop_one, List.tail_cons]
    rw [jsParseIntCore_natToStr]
    show some (-(((-k).toNat : Nat) : Int)) = some k
    exact congrArg some (by omega)
  · rw [if_neg hk]
    unfold jsParseInt
    rw [jsTrimStart_digits _ (natToStr_all_digits k.toNat)]
    have hd : ∃ c cs, natToStr k.toNat = c :: cs ∧ isDigitChar c = true := by
      cases hn : natToStr k.toNat with
      | nil => exact absurd hn (natToStr_ne_nil _)
      | cons c cs =>
        exact ⟨c, cs, rfl, natToStr_all_digits k.toNat c (by rw [hn]; simp)⟩
    obtain ⟨c, cs, hn, hc⟩ := hd
    have hfacts := isDigitChar_ne hc
    have hm : ¬ ('-' = c) := fun h => hfacts.2.2.2.1 h.symm
    have hp : ¬ ('+' = c) := fun h => hfacts.2.2.2.2.1 h.symm
    rw [hn]
    rw [if_neg (by simp [startsWithStr, hm]), if_neg (by simp [startsWithStr, hp])]
    rw [← hn, jsParseIntCore_natToStr]
    show some ((k.toNat : Nat) : Int) = some k
    exact congrArg some (by omega)

/-! ### Substring-containment facts about serialized lines -/

theorem prefix_split {p : Str} : ∀ {a b : Str}, p <+: a ++ b →
    p <+: a ∨ ∃ q, p = a ++ q ∧ q <+: b := by
  intro a
  induction a generalizing p with
  | nil => intro b h; exact Or.inr ⟨p, rfl, h⟩
  | cons x xs ih =>
    intro b h
    cases p with
    | nil => exact Or.inl ⟨x :: xs, rfl⟩
    | cons pc pcs =>
      rw [List.cons_append, List.cons_prefix_cons] at h
      obtain ⟨rfl, h2⟩ := h
      rcases ih h2 with h3 | ⟨q, rfl, hq⟩
      · exact Or.inl (List.cons_prefix_cons.2 ⟨rfl, h3⟩)
      · exact Or.inr ⟨q, rfl, hq⟩

theorem infix_split {p : Str} {c : Char} (hc : c ∉ p) :
    ∀ {x y : Str}, p <:+: x ++ c :: y → p <:+: x ∨ p <:+: y := by
  intro x
  induction x generalizing p with
  | nil =>
    intro y h
    rw [List.nil_append, List.infix_cons_iff] at h
    rcases h with h | h
    · cases p with
      | nil => exact Or.inr ⟨[], y, by simp⟩
      | cons pc pcs =>
        rw [List.cons_prefix_cons] at h
        exact absurd (h.1 ▸ List.mem_cons_self pc pcs) hc
    · exact Or.inr h
  | cons a x' ih =>
    intro y h
    rw [List.cons_append, List.infix_cons_iff] at h
    rcases h with h | h
    · cases p with
      | nil => exact Or.inl ⟨[], a :: x', by simp⟩
      | cons pc pcs =>
        rw [List.cons_prefix_cons] at h
        obtain ⟨rfl, h2⟩ := h
        rcases prefix_split h2 with h3 | ⟨q, rfl, hq⟩
        · have hpfx : pc :: pcs <+: pc :: x' := List.cons_prefix_cons.2 ⟨rfl, h3⟩
          obtain ⟨t, ht⟩ := hpfx
          exact Or.inl ⟨[], t, by simpa using ht⟩
        · cases q with
          | nil =>
            have hpfx : pc :: (x' ++ []) <+: pc :: x' :=
              List.cons_prefix_cons.2 ⟨rfl, by simp⟩
            obtain ⟨t, ht⟩ := hpfx
            exact Or.inl ⟨[], t, by simpa using ht⟩
          | cons qc qcs =>
            rw [List.cons_prefix_cons] at hq
            exfalso
            apply hc
            rw [hq.1]
            simp
    · rcases ih hc h with h2 | h2
      · exact Or.inl (h2.trans (List.infix_cons (List.infix_refl x')))
      · exact Or.inr h2

theorem first_sep_eq (c : Char) : ∀ {a b x y : Str}, c ∉ a → c ∉ b →
    a ++ c :: x = b ++ c :: y → a = b ∧ x = y := by
  intro a
  induction a with
  | nil =>
    intro b x y _ hb h
    cases b with
    | nil => simpa using h
    | cons bb bs =>
      rw [List.nil_append, List.cons_append, List.cons.injEq] at h
      exact absurd (h.1 ▸ List.mem_cons_self bb bs) hb
  | cons aa as ih =>
    intro b x y ha hb h
    cases b with
    | nil =>
      rw [List.nil_append, List.cons_append, List.cons.injEq] at h
      exact absurd (h.1.symm ▸ List.mem_cons_self aa as) ha
    | cons bb bs =>
      rw [List.cons_append, List.cons_append, List.cons.injEq] at h
      obtain ⟨rfl, h2⟩ := h
      obtain ⟨h3, h4⟩ := ih (fun hm => ha (List.mem_cons_of_mem _ hm))
        (fun hm => hb (List.mem_cons_of_mem _ hm)) h2
      exact ⟨by rw [h3], h4⟩

theorem pipe_count_two {u v id1 rest1 : Str} {c1 c2 : Char}
    (hu : u ++ '|' :: c1 :: '|' :: v = id1 ++ '|' :: c2 :: '|' :: rest1)
    (hidu : '|' ∉ id1) (hrest : '|' ∉ rest1) (hcv : c1 ≠ '|') (hc2 : c2 ≠ '|') :
    u = id1 ∧ c1 = c2 ∧ v = rest1 := by
  have hunp : '|' ∉ u := by
    intro hmem
    have hcount : ('|' :: c1 :: '|' :: v).count '|' = 2 + v.count '|' := by
      simp [List.count_cons, hcv]
      omega
    have hcount2 : ('|' :: c2 :: '|' :: rest1).count '|' = 2 := by
      simp [List.count_cons, hc2, List.count_eq_zero.2 hrest]
    have h1 := congrArg (fun l => l.count '|') hu
    simp only [List.count_append, hcount, hcount2] at h1
    have hu1 : 1 ≤ u.count '|' := List.one_le_count_iff.2 hmem
    have hid0 : id1.count '|' = 0 := List.count_eq_zero.2 hidu
    omega
  obtain ⟨h1, h2⟩ := first_sep_eq '|' hunp hidu hu
  rw [List.cons.injEq] at h2
  obtain ⟨rfl, h3⟩ := h2
  rw [List.cons.injEq] at h3
  exact ⟨h1, rfl, h3.2⟩

theorem intToStr_chars (k : Int) : ∀ c ∈ intToStr k, isDigitChar c = true ∨ c = '-' := by
  unfold intToStr
  by_cases hk : k < 0
  · rw [if_pos hk]
    intro c hc
    rcases List.mem_cons.1 hc with rfl | h
    · exact Or.inr rfl
    · exact Or.inl (natToStr_all_digits _ c h)
  · rw [if_neg hk]
    intro c hc
    exact Or.inl (natToStr_all_digits _ c hc)

theorem intToStr_no_pipe_tab_nl (k : Int) :
    ∀ c ∈ intToStr k, c ≠ '|' ∧ c ≠ '\t' ∧ c ≠ '\n' := by
  intro c hc
  rcases intToStr_chars k c hc with h | rfl
  · obtain ⟨hnl, hht, hpi, _⟩ := isDigitChar_ne h
    exact ⟨hpi, hht, hnl⟩
  · exact ⟨by decide, by decide, by decide⟩

theorem no_pipe_no_tags {f : Str} (hf : '|' ∉ f) :
    substrContains titleTag f = false ∧ substrContains abstractTag f = false := by
  constructor
  · by_contra hc
    rw [Bool.not_eq_false, substrContains_iff] at hc
    obtain ⟨u, v, huv⟩ := hc
    apply hf
    rw [← huv]
    simp [titleTag]
  · by_contra hc
    rw [Bool.not_eq_false, substrContains_iff] at hc
    obtain ⟨u, v, huv⟩ := hc
    apply hf
    rw [← huv]
    simp [abstractTag]

theorem lineSafeField_spec {f : Str} (h : lineSafeField f = true) :
    '\t' ∉ f ∧ '\n' ∉ f ∧ substrContains titleTag f = false ∧
      substrContains abstractTag f = false := by
  unfold lineSafeField at h
  simp only [Bool.and_eq_true, Bool.not_eq_true'] at h
  obtain ⟨⟨⟨h1, h2⟩, h3⟩, h4⟩ := h
  refine ⟨?_, ?_, h3, h4⟩
  · intro hm
    simp at h1
    exact h1 hm
  · intro hm
    simp at h2
    exact h2 hm

theorem headerSafe_spec {s : Str} (h : headerSafe s = true) : '|' ∉ s ∧ '\n' ∉ s := by
  unfold headerSafe at h
  simp only [Bool.and_eq_true, Bool.not_eq_true'] at h
  obtain ⟨h1, h2⟩ := h
  constructor
  · intro hm
    simp at h1
    exact h1 hm
  · intro hm
    simp at h2
    exact h2 hm

theorem annWFexport_spec {a : Annot} (h : annWFexport a = true) :
    lineSafeField a.id = true ∧ lineSafeField a.text = true ∧ lineSafeField a.type = true ∧
    (∃ k1 : Int, a.start = some k1) ∧ (∃ k2 : Int, a.stop = some k2) ∧
    (a.normalizedId = none ∨
      ∃ s, a.normalizedId = some s ∧ s ≠ [] ∧ lineSafeField s = true) := by
  unfold annWFexport annWFclaim at h
  simp only [Bool.and_eq_true] at h
  obtain ⟨hid, ⟨⟨⟨htext, htype⟩, hs1⟩, hs2⟩, hnid⟩ := h
  refine ⟨hid, htext, htype, Option.isSome_iff_exists.1 hs1, Option.isSome_iff_exists.1 hs2, ?_⟩
  generalize hgen : a.normalizedId = nid at hnid ⊢
  cases nid with
  | none => exact Or.inl rfl
  | some s =>
    simp only [Bool.and_eq_true, Bool.not_eq_true'] at hnid
    exact Or.inr ⟨s, rfl, by simpa [List.isEmpty_iff] using hnid.1, hnid.2⟩

theorem intToStr_ne_nil (k : Int) : intToStr k ≠ [] := by
  unfold intToStr
  by_cases hk : k < 0
  · simp [hk]
  · simp [hk, natToStr_ne_nil]

theorem intToStr_not_white (k : Int) : ∀ c ∈ intToStr k, jsIsWhiteChar c = false := by
  intro c hc
  rcases intToStr_chars k c hc with h | rfl
  · exact (isDigitChar_ne h).2.2.2.2.2.2.2
  · decide

theorem tag_not_in_int {k : Int} {tag : Str} (hpipe : '|' ∈ tag) :
    substrContains tag (intToStr k) = false := by
  by_contra hc
  rw [Bool.not_eq_false, substrContains_iff] at hc
  obtain ⟨u, v, huv⟩ := hc
  have hmem : '|' ∈ intToStr k := by
    rw [← huv]
    exact List.mem_append_left _ (List.mem_append_right _ hpipe)
  exact absurd rfl (intToStr_no_pipe_tab_nl k '|' hmem).1

theorem annoLine_eq_none {a : Annot} {k1 k2 : Int} (h1 : a.start = some k1)
    (h2 : a.stop = some k2) (hn : a.normalizedId = none) :
    annoLine a = a.id ++ '\t' ::
      (intToStr k1 ++ '\t' :: (intToStr k2 ++ '\t' :: (a.text ++ '\t' :: a.type))) := by
  unfold annoLine numToStr
  rw [h1, h2, hn]
  simp

theorem annoLine_eq_some {a : Annot} {k1 k2 : Int} {s : Str} (h1 : a.start = some k1)
    (h2 : a.stop = some k2) (hn : a.normalizedId = some s) (hs : s ≠ []) :
    annoLine a = a.id ++ '\t' ::
      (intToStr k1 ++ '\t' :: (intToStr k2 ++ '\t' ::
        (a.text ++ '\t' :: (a.type ++ '\t' :: s)))) := by
  unfold annoLine numToStr
  rw [h1, h2, hn]
  simp [List.isEmpty_iff, hs, List.append_assoc]

theorem not_infix_of_false {tag f : Str} (hf : substrContains tag f = false) :
    ¬ (tag <:+: f) := by
  intro hinf
  rw [← substrContains_iff] at hinf
  rw [hf] at hinf
  exact absurd hinf (by decide)

theorem tag_not_in_annoLine {a : Annot} (hwf : annWFexport a = true) {tag : Str}
    (htab : '\t' ∉ tag) (hpipe : '|' ∈ tag)
    (hid : substrContains tag a.id = false) (htext : substrContains tag a.text = false)
    (htype : substrContains tag a.type = false)
    (hnid : ∀ s, a.normalizedId = some s → substrContains tag s = false) :
    substrContains tag (annoLine a) = false := by
  obtain ⟨_, _, _, ⟨k1, hk1⟩, ⟨k2, hk2⟩, hopt⟩ := annWFexport_spec hwf
  by_contra hc
  rw [Bool.not_eq_false, substrContains_iff] at hc
  have hint : ∀ k : Int, ¬ (tag <:+: intToStr k) :=
    fun k => not_infix_of_false (tag_not_in_int hpipe)
  rcases hopt with hnone | ⟨s, hsome, hsne, _⟩
  · rw [annoLine_eq_none hk1 hk2 hnone] at hc
    rcases infix_split htab hc with h | h
    · exact not_infix_of_false hid h
    rcases infix_split htab h with h | h
    · exact hint k1 h
    rcases infix_split htab h with h | h
    · exact hint k2 h
    rcases infix_split htab h with h | h
    · exact not_infix_of_false htext h
    · exact not_infix_of_false htype h
  · rw [annoLine_eq_some hk1 hk2 hsome hsne] at hc
    rcases infix_split htab hc with h | h
    · exact not_infix_of_false hid h
    rcases infix_split htab h with h | h
    · exact hint k1 h
    rcases infix_split htab h with h | h
    · exact hint k2 h
    rcases infix_split htab h with h | h
    · exact not_infix_of_false htext h
    rcases infix_split htab h with h | h
    · exact not_infix_of_false htype h
    · exact not_infix_of_false (hnid s hsome) h

theorem lineKind_annoLine {a : Annot} (hwf : annWFexport a = true) :
    lineKind (annoLine a) = .ann := by
  obtain ⟨hid, htext, htype, _, _, hopt⟩ := annWFexport_spec hwf
  have hnid1 : ∀ s, a.normalizedId = some s → substrContains titleTag s = false := by
    intro s hs
    rcases hopt with hnone | ⟨s0, hs0, _, hsafe⟩
    · rw [hnone] at hs
      cases hs
    · rw [hs0] at hs
      cases hs
      exact (lineSafeField_spec hsafe).2.2.1
  have hnid2 : ∀ s, a.normalizedId = some s → substrContains abstractTag s = false := by
    intro s hs
    rcases hopt with hnone | ⟨s0, hs0, _, hsafe⟩
    · rw [hnone] at hs
      cases hs
    · rw [hs0] at hs
      cases hs
      exact (lineSafeField_spec hsafe).2.2.2
  apply lineKind_eq_ann
  · exact tag_not_in_annoLine hwf (by decide) (by simp [titleTag])
      (lineSafeField_spec hid).2.2.1 (lineSafeField_spec htext).2.2.1
      (lineSafeField_spec htype).2.2.1 hnid1
  · exact tag_not_in_annoLine hwf (by decide) (by simp [abstractTag])
      (lineSafeField_spec hid).2.2.2 (lineSafeField_spec htext).2.2.2
      (lineSafeField_spec htype).2.2.2 hnid2

theorem tab_not_mem_int (k : Int) : '\t' ∉ intToStr k :=
  fun hm => (intToStr_no_pipe_tab_nl k '\t' hm).2.1 rfl

theorem annoLine_split {a : Annot} (hwf : annWFexport a = true) :
    (∃ k1 k2 : Int, a.start = some k1 ∧ a.stop = some k2 ∧
      ((a.normalizedId = none ∧
        splitOnChar '\t' (annoLine a) = [a.id, intToStr k1, intToStr k2, a.text, a.type]) ∨
       (∃ s, a.normalizedId = some s ∧
        splitOnChar '\t' (annoLine a) =
          [a.id, intToStr k1, intToStr k2, a.text, a.type, s]))) := by
  obtain ⟨hid, htext, htype, ⟨k1, hk1⟩, ⟨k2, hk2⟩, hopt⟩ := annWFexport_spec hwf
  have hidt : '\t' ∉ a.id := (lineSafeField_spec hid).1
  have htextt : '\t' ∉ a.text := (lineSafeField_spec htext).1
  have htypet : '\t' ∉ a.type := (lineSafeField_spec htype).1
  refine ⟨k1, k2, hk1, hk2, ?_⟩
  rcases hopt with hnone | ⟨s, hsome, hsne, hsafe⟩
  · refine Or.inl ⟨hnone, ?_⟩
    rw [annoLine_eq_none hk1 hk2 hnone]
    rw [splitOnChar_sep '\t' a.id, splitOnChar_no_sep '\t' a.id hidt,
      splitOnChar_sep '\t' (intToStr k1), splitOnChar_no_sep '\t' (intToStr k1) (tab_not_mem_int k1),
      splitOnChar_sep '\t' (intToStr k2), splitOnChar_no_sep '\t' (intToStr k2) (tab_not_mem_int k2),
      splitOnChar_sep '\t' a.text, splitOnChar_no_sep '\t' a.text htextt,
      splitOnChar_no_sep '\t' a.type htypet]
    rfl
  · refine Or.inr ⟨s, hsome, ?_⟩
    have hst : '\t' ∉ s := (lineSafeField_spec hsafe).1
    rw [annoLine_eq_some hk1 hk2 hsome hsne]
    rw [splitOnChar_sep '\t' a.id, splitOnChar_no_sep '\t' a.id hidt,
      splitOnChar_sep '\t' (intToStr k1), splitOnChar_no_sep '\t' (intToStr k1) (tab_not_mem_int k1),
      splitOnChar_sep '\t' (intToStr k2), splitOnChar_no_sep '\t' (intToStr k2) (tab_not_mem_int k2),
      splitOnChar_sep '\t' a.text, splitOnChar_no_sep '\t' a.text htextt,
      splitOnChar_sep '\t' a.type, splitOnChar_no_sep '\t' a.type htypet,
      splitOnChar_no_sep '\t' s hst]
    rfl

theorem sepLine_facts (id tag body : Str) (hidn : '\n' ∉ id) (hbn : '\n' ∉ body)
    (htagp : '|' ∈ tag) (htagn : '\n' ∉ tag) :
    jsTrim (id ++ tag ++ body) ≠ [] ∧ '\n' ∉ (id ++ tag ++ body) := by
  constructor
  · refine jsTrim_ne_nil_of_mem _ '|' ?_ (by decide)
    exact List.mem_append_left _ (List.mem_append_right _ htagp)
  · intro hm
    rcases List.mem_append.1 hm with h | h
    · rcases List.mem_append.1 h with h2 | h2
      · exact hidn h2
      · exact htagn h2
    · exact hbn h

theorem annoLine_facts {a : Annot} (hwf : annWFexport a = true) :
    jsTrim (annoLine a) ≠ [] ∧ '\n' ∉ annoLine a := by
  obtain ⟨hid, htext, htype, ⟨k1, hk1⟩, ⟨k2, hk2⟩, hopt⟩ := annWFexport_spec hwf
  have hint : ∀ k : Int, '\n' ∉ intToStr k :=
    fun k hm => (intToStr_no_pipe_tab_nl k '\n' hm).2.2 rfl
  constructor
  · obtain ⟨c, hc⟩ := List.exists_mem_of_ne_nil _ (intToStr_ne_nil k1)
    refine jsTrim_ne_nil_of_mem _ c ?_ (intToStr_not_white k1 c hc)
    rcases hopt with hnone | ⟨nid, hsome, hsne, _⟩
    · rw [annoLine_eq_none hk1 hk2 hnone]
      exact List.mem_append_right _ (List.mem_cons_of_mem _ (List.mem_append_left _ hc))
    · rw [annoLine_eq_some hk1 hk2 hsome hsne]
      exact List.mem_append_right _ (List.mem_cons_of_mem _ (List.mem_append_left _ hc))
  · intro hm
    have htab : ('\n' : Char) ≠ '\t' := by decide
    rcases hopt with hnone | ⟨nid, hsome, hsne, hsafe⟩
    · rw [annoLine_eq_none hk1 hk2 hnone] at hm
      rcases List.mem_append.1 hm with h | h
      · exact (lineSafeField_spec hid).2.1 h
      rcases List.mem_cons.1 h with h | h
      · exact htab h
      rcases List.mem_append.1 h with h | h
      · exact hint k1 h
      rcases List.mem_cons.1 h with h | h
      · exact htab h
      rcases List.mem_append.1 h with h | h
      · exact hint k2 h
      rcases List.mem_cons.1 h with h | h
      · exact htab h
      rcases List.mem_append.1 h with h | h
      · exact (lineSafeField_spec htext).2.1 h
      rcases List.mem_cons.1 h with h | h
      · exact htab h
      · exact (lineSafeField_spec htype).2.1 h
    · rw [annoLine_eq_some hk1 hk2 hsome hsne] at hm
      rcases List.mem_append.1 hm with h | h
      · exact (lineSafeField_spec hid).2.1 h
      rcases List.mem_cons.1 h with h | h
      · exact htab h
      rcases List.mem_append.1 h with h | h
      · exact hint k1 h
      rcases List.mem_cons.1 h with h | h
      · exact htab h
      rcases List.mem_append.1 h with h | h
      · exact hint k2 h
      rcases List.mem_cons.1 h with h | h
      · exact htab h
      rcases List.mem_append.1 h with h | h
      · exact (lineSafeField_spec htext).2.1 h
      rcases List.mem_cons.1 h with h | h
      · exact htab h
      rcases List.mem_append.1 h with h | h
      · exact (lineSafeField_spec htype).2.1 h
      rcases List.mem_cons.1 h with h | h
      · exact htab h
      · exact (lineSafeField_spec hsafe).2.1 h

theorem pstep_anno (s : PState) (d0 : Document) (a : Annot) (hwf : annWFexport a = true)
    (hcur : s.currentDoc = some d0) :
    pstep s (annoLine a) =
      .ok ⟨s.docs, some { d0 with annotations := d0.annotations ++ [a] },
        setAdd s.entityTypes a.type⟩ := by
  obtain ⟨k1, k2, hk1, hk2, hsplit⟩ := annoLine_split hwf
  unfold pstep
  rw [lineKind_annoLine hwf]
  rw [if_neg (by simp [List.isEmpty_iff, (annoLine_facts hwf).1])]
  rcases hsplit with ⟨hnone, hsp⟩ | ⟨nid, hsome, hsp⟩
  · simp only [hsp, hcur, List.length_cons, List.length_nil]
    rw [if_pos (by omega)]
    simp only [List.getD, List.get?_cons_zero, List.get?_cons_succ, List.getElem?_cons_zero,
      List.getElem?_cons_succ, Option.getD_some]
    rw [if_neg (by omega)]
    rw [jsParseInt_intToStr, jsParseInt_intToStr, ← hk1, ← hk2, ← hnone]
  · simp only [hsp, hcur, List.length_cons, List.length_nil]
    rw [if_pos (by omega)]
    simp only [List.getD, List.get?_cons_zero, List.get?_cons_succ, List.getElem?_cons_zero,
      List.getElem?_cons_succ, Option.getD_some]
    rw [if_pos (by omega)]
    rw [jsParseInt_intToStr, jsParseInt_intToStr, ← hk1, ← hk2, ← hsome]

theorem pstep_title (s : PState) (id title : Str) (hid : '|' ∉ id) (hti : '|' ∉ title) :
    pstep s (id ++ titleTag ++ title) =
      .ok ⟨s.docs ++ s.currentDoc.toList, some ⟨id, title, [], []⟩, s.entityTypes⟩ := by
  have hk : lineKind (id ++ titleTag ++ title) = .title := by
    unfold lineKind
    rw [if_pos ((substrContains_iff titleTag _).2 ⟨id, title, by simp⟩)]
  have hsp : splitOnChar '|' (id ++ titleTag ++ title) = [id, ['t'], title] := by
    rw [List.append_assoc]
    show splitOnChar '|' (id ++ '|' :: ('t' :: '|' :: title)) = _
    rw [splitOnChar_sep '|' id ('t' :: '|' :: title), splitOnChar_no_sep '|' id hid]
    rw [show ('t' :: '|' :: title : Str) = ['t'] ++ '|' :: title from rfl]
    rw [splitOnChar_sep '|' ['t'] title, splitOnChar_no_sep '|' ['t'] (by decide),
      splitOnChar_no_sep '|' title hti]
    rfl
  unfold pstep
  rw [hk]
  simp only [hsp]
  rfl

theorem pstep_abstract (s : PState) (d0 : Document) (id abs2 : Str) (hid : '|' ∉ id)
    (hab : '|' ∉ abs2) (hcur : s.currentDoc = some d0) :
    pstep s (id ++ abstractTag ++ abs2) =
      .ok ⟨s.docs, some { d0 with abstract := abs2 }, s.entityTypes⟩ := by
  have hnt : substrContains titleTag (id ++ abstractTag ++ abs2) = false := by
    by_contra hc
    rw [Bool.not_eq_false, substrContains_iff] at hc
    obtain ⟨u, v, huv⟩ := hc
    have huv2 : u ++ '|' :: 't' :: '|' :: v = id ++ '|' :: 'a' :: '|' :: abs2 := by
      rw [List.append_assoc, List.append_assoc] at huv
      exact huv
    obtain ⟨_, hta, _⟩ := pipe_count_two huv2 hid hab (by decide) (by decide)
    exact absurd hta (by decide)
  have hk : lineKind (id ++ abstractTag ++ abs2) = .abs := by
    apply lineKind_eq_abs _ hnt
    exact (substrContains_iff abstractTag _).2 ⟨id, abs2, by simp⟩
  have hsp : splitOnChar '|' (id ++ abstractTag ++ abs2) = [id, ['a'], abs2] := by
    rw [List.append_assoc]
    show splitOnChar '|' (id ++ '|' :: ('a' :: '|' :: abs2)) = _
    rw [splitOnChar_sep '|' id ('a' :: '|' :: abs2), splitOnChar_no_sep '|' id hid]
    rw [show ('a' :: '|' :: abs2 : Str) = ['a'] ++ '|' :: abs2 from rfl]
    rw [splitOnChar_sep '|' ['a'] abs2, splitOnChar_no_sep '|' ['a'] (by decide),
      splitOnChar_no_sep '|' abs2 hab]
    rfl
  unfold pstep
  rw [hk, hcur]
  simp only [hsp]
  rfl

theorem docWFexport_spec {d : Document} (h : docWFexport d = true) :
    headerSafe d.id = true ∧ headerSafe d.title = true ∧ headerSafe d.abstract = true ∧
      ∀ a ∈ d.annotations, annWFexport a = true := by
  unfold docWFexport at h
  simp only [Bool.and_eq_true] at h
  obtain ⟨⟨⟨h1, h2⟩, h3⟩, h4⟩ := h
  refine ⟨h1, h2, h3, ?_⟩
  rw [List.all_eq_true] at h4
  intro a ha
  exact h4 a ha

theorem parseLinesGo_cons_ok {s s1 : PState} {x : Str} {xs : List Str}
    (h : pstep s x = .ok s1) : parseLinesGo s (x :: xs) = parseLinesGo s1 xs := by
  simp only [parseLinesGo, h]

theorem parseLinesGo_annos (annos : List Annot) : ∀ (s : PState) (d0 : Document),
    (∀ a ∈ annos, annWFexport a = true) → s.currentDoc = some d0 →
    ∃ types, parseLinesGo s (annos.map annoLine) =
      .ok ⟨s.docs, some { d0 with annotations := d0.annotations ++ annos }, types⟩ := by
  induction annos with
  | nil =>
    intro s d0 _ hcur
    obtain ⟨sdocs, scur, stypes⟩ := s
    obtain ⟨i, t, ab, an⟩ := d0
    simp only at hcur
    subst hcur
    exact ⟨stypes, by simp [parseLinesGo]⟩
  | cons a as ih =>
    intro s d0 hwf hcur
    rw [List.map_cons,
      parseLinesGo_cons_ok (pstep_anno s d0 a (hwf a (List.mem_cons_self _ _)) hcur)]
    obtain ⟨types, hrec⟩ := ih
      ⟨s.docs, some { d0 with annotations := d0.annotations ++ [a] },
        setAdd s.entityTypes a.type⟩
      { d0 with annotations := d0.annotations ++ [a] }
      (fun x hx => hwf x (List.mem_cons_of_mem _ hx)) rfl
    refine ⟨types, ?_⟩
    rw [hrec]
    simp [List.append_assoc]

theorem parseLinesGo_doc (d : Document) (hwf : docWFexport d = true) (s : PState) :
    ∃ types, parseLinesGo s (cleanDocLines d) =
      .ok ⟨s.docs ++ s.currentDoc.toList, some d, types⟩ := by
  obtain ⟨hid, hti, hab, hannos⟩ := docWFexport_spec hwf
  show ∃ types, parseLinesGo s
    ((d.id ++ titleTag ++ d.title) :: (d.id ++ abstractTag ++ d.abstract) ::
      d.annotations.map annoLine) = _
  rw [parseLinesGo_cons_ok
    (pstep_title s d.id d.title (headerSafe_spec hid).1 (headerSafe_spec hti).1)]
  rw [parseLinesGo_cons_ok
    (pstep_abstract _ ⟨d.id, d.title, [], []⟩ d.id d.abstract (headerSafe_spec hid).1
      (headerSafe_spec hab).1 rfl)]
  obtain ⟨types, hrec⟩ := parseLinesGo_annos d.annotations
    ⟨s.docs ++ s.currentDoc.toList, some ⟨d.id, d.title, d.abstract, []⟩, s.entityTypes⟩
    ⟨d.id, d.title, d.abstract, []⟩ hannos rfl
  refine ⟨types, ?_⟩
  rw [hrec]
  rfl

theorem parseLinesGo_docs (D : List Document) : ∀ s : PState,
    (∀ d ∈ D, docWFexport d = true) →
    ∃ s' : PState, parseLinesGo s (D.flatMap cleanDocLines) = .ok s' ∧
      s'.docs ++ s'.currentDoc.toList = (s.docs ++ s.currentDoc.toList) ++ D := by
  induction D with
  | nil =>
    intro s _
    exact ⟨s, rfl, by simp⟩
  | cons d Ds ih =>
    intro s hwf
    rw [List.flatMap_cons, parseLinesGo_append]
    obtain ⟨types, hdoc⟩ := parseLinesGo_doc d (hwf d (List.mem_cons_self _ _)) s
    rw [hdoc]
    obtain ⟨s', hrun, hdocs⟩ := ih
      ⟨s.docs ++ s.currentDoc.toList, some d, types⟩
      (fun x hx => hwf x (List.mem_cons_of_mem _ hx))
    refine ⟨s', hrun, ?_⟩
    rw [hdocs]
    simp [List.append_assoc]

theorem generateExportContent_eq (D : List Document) :
    generateExportContent D = (D.map docBlock).flatten := by
  have key : ∀ (l : List Document) (acc : Str),
      l.foldl (fun content doc => content ++ docBlock doc) acc =
        acc ++ (l.map docBlock).flatten := by
    intro l
    induction l with
    | nil => intro acc; simp
    | cons d ds ih =>
      intro acc
      simp only [List.foldl_cons, List.map_cons, List.flatten_cons]
      rw [ih]
      simp [List.append_assoc]
  have h := key D []
  simpa [generateExportContent] using h

theorem docBlock_lines (d : Document) :
    docBlock d = ((cleanDocLines d ++ [[]]).map (fun l => l ++ ['\n'])).flatten := by
  unfold docBlock cleanDocLines
  simp [List.map_map, Function.comp, List.append_assoc]
  rfl

theorem content_lines (D : List Document) :
    generateExportContent D =
      ((D.flatMap (fun d => cleanDocLines d ++ [[]])).map (fun l => l ++ ['\n'])).flatten := by
  rw [generateExportContent_eq]
  induction D with
  | nil => rfl
  | cons d ds ih =>
    simp only [List.map_cons, List.flatten_cons, List.flatMap_cons, List.map_append,
      List.flatten_append, ih, docBlock_lines]

theorem splitOnChar_joinlines (c : Char) : ∀ ls : List Str, (∀ l ∈ ls, c ∉ l) →
    splitOnChar c ((ls.map (fun l => l ++ [c])).flatten) = ls ++ [[]] := by
  intro ls
  induction ls with
  | nil => intro _; rfl
  | cons l rest ih =>
    intro h
    simp only [List.map_cons, List.flatten_cons]
    rw [List.append_assoc]
    show splitOnChar c (l ++ c :: (rest.map (fun l => l ++ [c])).flatten) = _
    rw [splitOnChar_sep c l, splitOnChar_no_sep c l (h l (List.mem_cons_self _ _)),
      ih (fun x hx => h x (List.mem_cons_of_mem _ hx))]
    rfl

theorem cleanDocLines_facts {d : Document} (hwf : docWFexport d = true) :
    ∀ l ∈ cleanDocLines d, jsTrim l ≠ [] ∧ '\n' ∉ l := by
  obtain ⟨hid, hti, hab, hannos⟩ := docWFexport_spec hwf
  intro l hl
  unfold cleanDocLines at hl
  rcases List.mem_cons.1 hl with rfl | hl
  · exact sepLine_facts _ _ _ (headerSafe_spec hid).2 (headerSafe_spec hti).2
      (by decide) (by decide)
  rcases List.mem_cons.1 hl with rfl | hl
  · exact sepLine_facts _ _ _ (headerSafe_spec hid).2 (headerSafe_spec hab).2
      (by decide) (by decide)
  obtain ⟨a, ha, rfl⟩ := List.mem_map.1 hl
  exact annoLine_facts (hannos a ha)

theorem filteredLines_export (D : List Document) (hwf : ∀ d ∈ D, docWFexport d = true) :
    filteredLines (generateExportContent D) = D.flatMap cleanDocLines := by
  unfold filteredLines
  rw [content_lines D]
  rw [splitOnChar_joinlines '\n' _ ?hnl]
  case hnl =>
    intro l hl
    rw [List.mem_flatMap] at hl
    obtain ⟨d, hd, hld⟩ := hl
    rcases List.mem_append.1 hld with h | h
    · exact (cleanDocLines_facts (hwf d hd) l h).2
    · rw [List.mem_singleton] at h
      subst h
      simp
  rw [List.filter_append]
  have hlast : List.filter (fun l => !(jsTrim l).isEmpty) [[]] = [] := rfl
  rw [hlast, List.append_nil]
  induction D with
  | nil => rfl
  | cons d ds ih =>
    rw [List.flatMap_cons, List.flatMap_cons, List.filter_append, List.filter_append]
    have h1 : List.filter (fun l => !(jsTrim l).isEmpty) (cleanDocLines d) = cleanDocLines d := by
      rw [List.filter_eq_self]
      intro l hl
      simp [List.isEmpty_iff, (cleanDocLines_facts (hwf d (List.mem_cons_self _ _)) l hl).1]
    rw [h1, hlast, List.append_nil, ih (fun x hx => hwf x (List.mem_cons_of_mem _ hx))]

/-- C1 (amended): for every document set whose documents' ids, titles and
abstracts contain no pipe and no newline, and whose annotations have
line-safe id, text, type and normalizedId fields (no tab, newline or
record tag), integer offsets, and null-or-non-empty normalizedId,
parsing the serialized export succeeds and reproduces every document's
id, title, abstract and every annotation's
(start, end, text, type, normalizedId), with only the entity-type set
recomputed. -/
theorem claim_C1 (D : List Document) (hwf : D.all docWFexport = true) :
    (parsedDocs (generateExportContent D)).map (fun ds => ds.map stripDoc) =
      some (D.map stripDoc) := by
  have hwf' : ∀ d ∈ D, docWFexport d = true := by
    rw [List.all_eq_true] at hwf
    exact hwf
  unfold parsedDocs
  have hpp : parsePubtator (generateExportContent D) =
      match parseLinesGo ⟨[], none, []⟩ (filteredLines (generateExportContent D)) with
      | .error e => .error e
      | .ok s => .ok ⟨s.docs ++ s.currentDoc.toList, s.entityTypes⟩ := rfl
  rw [hpp, filteredLines_export D hwf']
  obtain ⟨s', hrun, hdocs⟩ := parseLinesGo_docs D ⟨[], none, []⟩ hwf'
  rw [hrun]
  show some ((s'.docs ++ s'.currentDoc.toList).map stripDoc) = some (D.map stripDoc)
  rw [hdocs]
  rfl

/-- Counterexample to C1 as stated: the document with title "a|b" and no
annotations satisfies the claim's (annotation-only) well-formedness, yet
the round trip truncates the title at the pipe, so the parsed set does
not match. -/
theorem claim_C1_counterexample :
    docWFclaim ⟨"d".toList, "a|b".toList, [], []⟩ = true ∧
    ¬ (parsedDocs (generateExportContent [⟨"d".toList, "a|b".toList, [], []⟩])).map
        (fun ds => ds.map stripDoc) =
      some ([(⟨"d".toList, "a|b".toList, [], []⟩ : Document)].map stripDoc) := by
  refine ⟨by decide, fun h => ?_⟩
  have hL : (parsedDocs (generateExportContent [⟨"d".toList, "a|b".toList, [], []⟩])).map
      (fun ds => ds.map stripDoc) =
    some ([(⟨"d".toList, "a".toList, [], []⟩ : Document)].map stripDoc) := rfl
  rw [hL] at h
  have h2 := Option.some.inj h
  simp only [List.map_cons, List.map_nil] at h2
  injection h2 with hhead htail
  have h4 := congrArg (fun p => p.2.1) hhead
  exact absurd h4 (by decide)

/-- Witness for the amended C1 on the specification's scenario document. -/
theorem claim_C1_witness :
    (parsedDocs (generateExportContent
        [⟨"doc1".toList, "Hello world".toList, "p53 causes cancer".toList,
          [⟨"doc1".toList, some 0, some 5, "Hello".toList, "Greeting".toList, none⟩]⟩])).map
        (fun ds => ds.map stripDoc) =
      some ([(⟨"doc1".toList, "Hello world".toList, "p53 causes cancer".toList,
          [⟨"doc1".toList, some 0, some 5, "Hello".toList, "Greeting".toList, none⟩]⟩ :
            Document)].map stripDoc) :=
  claim_C1
    [⟨"doc1".toList, "Hello world".toList, "p53 causes cancer".toList,
      [⟨"doc1".toList, some 0, some 5, "Hello".toList, "Greeting".toList, none⟩]⟩]
    (by decide)
